import Mathlib

/-!
Verification development for the sha256-fpga repository.

The development shallowly embeds the SYCL/FPGA sources:
* `include/sha256.hpp` — the SHA-256 compression core, padding and 2-to-1 hash;
* `include/merklize.hpp` — the two-orchestrator / four-worker Merkle tree builder;
* the single-orchestrator / two-worker Merkle tree builder (second document of
  `include/utils.hpp` in this snapshot);
* `include/utils.hpp` — big-endian byte conversions.

32-bit machine words are modelled as `Nat` together with explicit reduction
`% 2 ^ 32` wherever the C++ `uint32_t` arithmetic can overflow.  Device global
memory is modelled as total functions `Nat → Nat`; the blocking SYCL pipes with
capacity 0 force each dispatched hash to complete before its digest is stored,
so every kernel's memory effect is captured by a sequence of hash operations
(read 16 words, hash, write 8 words) executed in program order.
-/

namespace SF

set_option maxRecDepth 100000 in
/-- `uint32_t` truncation. -/
def w32 (x : Nat) : Nat := x % 4294967296

/-- Circular right shift of a 32-bit word; source `sha256.hpp` `rotr<n>`:
`(x >> n) | (x << (32 - n))` in `uint32_t` arithmetic (the left shift wraps). -/
def rotr (n x : Nat) : Nat := (x >>> n) ||| ((x <<< (32 - n)) % 4294967296)

/-- Source `sha256.hpp` `ch`: `(x & y) ^ (~x & z)`; 32-bit complement is
`x ^ 0xffffffff`. -/
def ch (x y z : Nat) : Nat := (x &&& y) ^^^ ((x ^^^ 4294967295) &&& z)

/-- Source `sha256.hpp` `maj`: `(x & y) ^ (x & z) ^ (y & z)`. -/
def maj (x y z : Nat) : Nat := (x &&& y) ^^^ (x &&& z) ^^^ (y &&& z)

/-- Source `sha256.hpp` `Σ_0`. -/
def Sigma_0 (x : Nat) : Nat := rotr 2 x ^^^ rotr 13 x ^^^ rotr 22 x

/-- Source `sha256.hpp` `Σ_1`. -/
def Sigma_1 (x : Nat) : Nat := rotr 6 x ^^^ rotr 11 x ^^^ rotr 25 x

/-- Source `sha256.hpp` `σ_0`. -/
def sigma_0 (x : Nat) : Nat := rotr 7 x ^^^ rotr 18 x ^^^ (x >>> 3)

/-- Source `sha256.hpp` `σ_1`. -/
def sigma_1 (x : Nat) : Nat := rotr 17 x ^^^ rotr 19 x ^^^ (x >>> 10)

/-- SHA-256 initial hash values, source `sha256.hpp` `IV` (the source writes
them in hex: 0x6a09e667, 0xbb67ae85, ..., 0x5be0cd19; decimal here). -/
def IV : List Nat :=
  [1779033703, 3144134277, 1013904242, 2773480762,
   1359893119, 2600822924, 528734635, 1541459225]

/-- SHA-256 round constants, source `sha256.hpp` `K` (the source writes them
in hex: 0x428a2f98, 0x71374491, ..., 0xc67178f2; decimal here). -/
def K : List Nat :=
  [1116352408, 1899447441, 3049323471, 3921009573, 961987163, 1508970993,
   2453635748, 2870763221, 3624381080, 310598401, 607225278, 1426881987,
   1925078388, 2162078206, 2614888103, 3248222580, 3835390401, 4022224774,
   264347078, 604807628, 770255983, 1249150122, 1555081692, 1996064986,
   2554220882, 2821834349, 2952996808, 3210313671, 3336571891, 3584528711,
   113926993, 338241895, 666307205, 773529912, 1294757372, 1396182291,
   1695183700, 1986661051, 2177026350, 2456956037, 2730485921, 2820302411,
   3259730800, 3345764771, 3516065817, 3600352804, 4094571909, 275423344,
   430227734, 506948616, 659060556, 883997877, 958139571, 1322822218,
   1537002063, 1747873779, 1955562222, 2024104815, 2227730452, 2361852424,
   2428436474, 2756734187, 3204031479, 3329325298]

/-- The remaining-48-schedules loop of `prepare_message_schedule`
(`sha256.hpp` lines 137-143).  The on-chip 64-word array `out` is modelled as a
list that grows by one word per iteration; the written slot `out[i & 0x3f]` is
exactly the append position because the loop counter `i` equals the current
length and stays below 64.  The source's index masks `& 0x3f` and the two
`uint32_t` partial sums `tmp0`/`tmp1` are kept verbatim. -/
def schedule_ext (acc : List Nat) : Nat → List Nat
  | 0 => acc
  | fuel + 1 =>
    let i := acc.length
    let tmp0 := w32 (sigma_1 (acc.getD ((i - 2) &&& 0x3f) 0) + acc.getD ((i - 7) &&& 0x3f) 0)
    let tmp1 := w32 (sigma_0 (acc.getD ((i - 15) &&& 0x3f) 0) + acc.getD ((i - 16) &&& 0x3f) 0)
    schedule_ext (acc ++ [w32 (tmp0 + tmp1)]) fuel

/-- Source `sha256.hpp` `prepare_message_schedule`: the first loop copies the
16 block words (`out[i & 0xf] = in[i & 0xf]`, the mask being the identity for
`i < 16`), the second loop derives the remaining 48 schedule words. -/
def prepare_message_schedule (inp : List Nat) : List Nat :=
  schedule_ext ((List.range 16).map (fun i => inp.getD (i &&& 0xf) 0)) 48

/-- One iteration of the 64-round loop of `sha256.hpp` `hash`
(lines 235-247), acting on the eight working variables `a..h`. -/
def sha_round (st : List Nat) (kw : Nat × Nat) : List Nat :=
  match st with
  | [a, b, c, d, e, f, g, h] =>
    let tmp0 := w32 (h + Sigma_1 e + ch e f g + kw.1 + kw.2)
    let tmp1 := w32 (Sigma_0 a + maj a b c)
    [w32 (tmp0 + tmp1), a, b, c, w32 (d + tmp0), e, f, g]
  | l => l

/-- One 512-bit block consumption of `sha256.hpp` `hash`: message-schedule
preparation, 64 rounds, then per-word addition into the running state
(`hash_state[i] += ...`, `uint32_t`, lines 251-258). -/
def compress (st : List Nat) (block : List Nat) : List Nat :=
  let w := prepare_message_schedule block
  let fin := (K.zip w).foldl sha_round st
  List.zipWith (fun x y => w32 (x + y)) st fin

/-- Source `sha256.hpp` `hash`: the state starts from `IV` and the two 16-word
halves of the 1024-bit padded input (`in + (i << 4)`) are consumed in sequence;
the digest is the final 8-word state. -/
def hash (padded : List Nat) : List Nat :=
  compress (compress IV ((List.range 16).map (fun i => padded.getD i 0)))
    ((List.range 16).map (fun i => padded.getD (16 + i) 0))

/-- Source `sha256.hpp` `pad_input_message`: copies the 16 input words, zeroes
the next 16, then overwrites word 16 with `0b10000000u << 24` and word 31 with
`0u | 0b00000010u << 8` (the 512-bit message length).  The net word layout is
written out directly. -/
def pad_input_message (inp : List Nat) : List Nat :=
  ((List.range 16).map (fun i => inp.getD i 0)) ++
    (0b10000000 <<< 24) :: (List.replicate 14 0 ++ [0b00000010 <<< 8])

/-- Source `utils.hpp` `from_be_bytes`: four big-endian bytes to a word. -/
def from_be_bytes (b : List Nat) : Nat :=
  (b.getD 0 0 <<< 24) ||| (b.getD 1 0 <<< 16) ||| (b.getD 2 0 <<< 8) ||| (b.getD 3 0 <<< 0)

/-- Source `utils.hpp` `to_be_bytes`: a word to four big-endian bytes. -/
def to_be_bytes (word : Nat) : List Nat :=
  [(word >>> 24) &&& 0xff, (word >>> 16) &&& 0xff, (word >>> 8) &&& 0xff, (word >>> 0) &&& 0xff]

/-!
FIPS 180-4 §6.2.2 reference formulation, used to state claim C2.  These
definitions follow the specification text: the message schedule is defined by
the recurrence `W t = σ1 (W (t-2)) + W (t-7) + σ0 (W (t-15)) + W (t-16)`
(no index masks, single mod-2^32 sum), and the 64 rounds are iterated by round
index rather than by folding over a zipped constant list.
-/

/-- FIPS 180-4 message schedule: first 16 words copied from the block, words
16..63 from the two-sigma recurrence, each reduced mod 2^32. -/
def fipsW (block : List Nat) : Nat → List Nat
  | 0 => []
  | n + 1 =>
    let prev := fipsW block n
    prev ++ [if n < 16 then block.getD n 0
             else w32 (sigma_1 (prev.getD (n - 2) 0) + prev.getD (n - 7) 0 +
                       sigma_0 (prev.getD (n - 15) 0) + prev.getD (n - 16) 0)]

/-- FIPS 180-4 §6.2.2 step 3 body at round `t`. -/
def fipsStep (st : List Nat) (kt wt : Nat) : List Nat :=
  match st with
  | [a, b, c, d, e, f, g, h] =>
    let t1 := w32 (h + Sigma_1 e + ch e f g + kt + wt)
    let t2 := w32 (Sigma_0 a + maj a b c)
    [w32 (t1 + t2), a, b, c, w32 (d + t1), e, f, g]
  | l => l

/-- State after the first `n` FIPS rounds. -/
def fipsRounds (st : List Nat) (w : List Nat) : Nat → List Nat
  | 0 => st
  | t + 1 => fipsStep (fipsRounds st w t) (K.getD t 0) (w.getD t 0)

/-- FIPS 180-4 §6.2.2: one block update of the running hash state. -/
def fipsCompress (st block : List Nat) : List Nat :=
  List.zipWith (fun x y => w32 (x + y)) st (fipsRounds st (fipsW block 64) 64)

/-- FIPS-style 2-to-1 hash: the two halves of the padded 32-word message are
consumed in strict sequence starting from `IV`. -/
def sha256_2to1_fips (padded : List Nat) : List Nat :=
  fipsCompress (fipsCompress IV (padded.take 16)) (padded.drop 16)

/-!
Operational model of the Merkle tree builders.

Both `merklize` variants drive the same kind of elementary step: read 16
contiguous words (from the leaves buffer or from the intermediates buffer),
pad them, hash them 2-to-1 through a compute kernel, and write the 8-word
digest at a target offset of the intermediates buffer.  The SYCL pipes have
capacity 0 and are blocking, so each dispatched message's digest is stored
before the data it produced is ever consumed; within one orchestrator loop
iteration the (at most two) reads precede the (at most two) writes, and the
read region of every intermediate-level iteration lies entirely above its
write region, so executing the operations one at a time in program order is
observationally identical to the pipelined schedule.  In `merklize.hpp` the
two orchestrator kernels run concurrently but touch disjoint regions and each
reads only locations it wrote itself (orchestrator 0 works below node 2,
orchestrator 1 below node 3), and the root kernel waits on both via
`depends_on`; hence their concatenation in sequence is likewise faithful.
-/

/-- Where an elementary hash operation reads its 16 input words. -/
inductive Src
  | leavesSrc
  | interSrc
deriving DecidableEq, Repr

/-- An elementary 2-to-1 hash operation: read 16 words at `i_off` from `src`,
write the 8 digest words at `o_off` of the intermediates buffer. -/
structure Op where
  src : Src
  i_off : Nat
  o_off : Nat
deriving DecidableEq, Repr

/-- Flat word-addressed memory. -/
def Buf : Type := Nat → Nat

/-- Write a list of words at an offset. -/
def writeN (b : Buf) (off : Nat) (vals : List Nat) : Buf :=
  fun x => if off ≤ x ∧ x - off < vals.length then vals.getD (x - off) 0 else b x

/-- Read 16 contiguous words at an offset. -/
def read16 (b : Buf) (off : Nat) : List Nat :=
  (List.range 16).map (fun j => b (off + j))

/-- Read `len` contiguous words at an offset (used to state claims). -/
def readN (b : Buf) (off len : Nat) : List Nat :=
  (List.range len).map (fun j => b (off + j))

/-- Execute one hash operation against the leaves and intermediates buffers. -/
def execOp (leaves : Buf) (b : Buf) (op : Op) : Buf :=
  let msg := match op.src with
    | Src.leavesSrc => read16 leaves op.i_off
    | Src.interSrc => read16 b op.i_off
  writeN b op.o_off (hash (pad_input_message msg))

/-- Execute a list of hash operations in order. -/
def execOps (leaves : Buf) (b : Buf) (ops : List Op) : Buf :=
  ops.foldl (execOp leaves) b

/-- Source `merklize.hpp` / `utils.hpp` `bin_log`, with an explicit fuel that
matches the C++ loop (`n` halvings always suffice). -/
def bin_logAux : Nat → Nat → Nat
  | 0, _ => 0
  | fuel + 1, n => if 1 < n then bin_logAux fuel (n >>> 1) + 1 else 0

/-- Binary logarithm used by both orchestrators. -/
def bin_log (n : Nat) : Nat := bin_logAux n n

/-- The `for (i = 0; i < itr_cnt; i += 2)` loop used by the `merklize.hpp`
orchestrators: the second operation of each iteration is guarded by
`if (itr_cnt > 1)`. -/
def pairLoopAux (src : Src) (i_off o_off itr_cnt : Nat) : Nat → Nat → List Op
  | _, 0 => []
  | i, fuel + 1 =>
    if i < itr_cnt then
      (Op.mk src (i_off + (i <<< 4)) (o_off + (i <<< 3)) ::
        (if 1 < itr_cnt then
          [Op.mk src (i_off + ((i + 1) <<< 4)) (o_off + ((i + 1) <<< 3))]
        else [])) ++ pairLoopAux src i_off o_off itr_cnt (i + 2) fuel
    else []

/-- Guarded pair loop starting at `i = 0`. -/
def pairLoop (src : Src) (i_off o_off itr_cnt : Nat) : List Op :=
  pairLoopAux src i_off o_off itr_cnt 0 itr_cnt

/-- The unguarded pair loop of the `utils.hpp` orchestrator: both halves of an
iteration run unconditionally. -/
def pairLoopUAux (src : Src) (i_off o_off itr_cnt : Nat) : Nat → Nat → List Op
  | _, 0 => []
  | i, fuel + 1 =>
    if i < itr_cnt then
      Op.mk src (i_off + (i <<< 4)) (o_off + (i <<< 3)) ::
      Op.mk src (i_off + ((i + 1) <<< 4)) (o_off + ((i + 1) <<< 3)) ::
      pairLoopUAux src i_off o_off itr_cnt (i + 2) fuel
    else []

/-- Unguarded pair loop starting at `i = 0`. -/
def pairLoopU (src : Src) (i_off o_off itr_cnt : Nat) : List Op :=
  pairLoopUAux src i_off o_off itr_cnt 0 itr_cnt

/-- `merklize.hpp` `kernelMerklizationOrchestrator0`, leaf phase
(lines 135-201): `i_offset = 0`, `o_offset = (leaf_cnt >> 1) << 3`,
`itr_cnt = leaf_cnt >> 2`. -/
def orch0LeafOps (leaf_cnt : Nat) : List Op :=
  pairLoop Src.leavesSrc 0 ((leaf_cnt >>> 1) <<< 3) (leaf_cnt >>> 2)

/-- `merklize.hpp` orchestrator 0, intermediate round `r` (lines 208-276). -/
def orch0RoundOps (leaf_cnt r : Nat) : List Op :=
  pairLoop Src.interSrc ((leaf_cnt <<< 2) >>> r) (((leaf_cnt <<< 2) >>> r) >>> 1)
    (leaf_cnt >>> (r + 3))

/-- All operations of `merklize.hpp` orchestrator 0. -/
def orch0Ops (leaf_cnt : Nat) : List Op :=
  orch0LeafOps leaf_cnt ++
    (List.range (bin_log (leaf_cnt >>> 2))).flatMap (orch0RoundOps leaf_cnt)

/-- `merklize.hpp` `kernelMerklizationOrchestrator1`, leaf phase
(lines 290-356): reads the upper half of the leaves buffer at
`i_offset = (leaf_cnt >> 1) << 3`, writes at `o_offset = i_offset + (i_offset >> 1)`. -/
def orch1LeafOps (leaf_cnt : Nat) : List Op :=
  pairLoop Src.leavesSrc ((leaf_cnt >>> 1) <<< 3)
    (((leaf_cnt >>> 1) <<< 3) + (((leaf_cnt >>> 1) <<< 3) >>> 1)) (leaf_cnt >>> 2)

/-- `merklize.hpp` orchestrator 1, intermediate round `r` (lines 363-431):
`i_offset = ((leaf_cnt << 2) + (leaf_cnt << 1)) >> r`. -/
def orch1RoundOps (leaf_cnt r : Nat) : List Op :=
  pairLoop Src.interSrc (((leaf_cnt <<< 2) + (leaf_cnt <<< 1)) >>> r)
    ((((leaf_cnt <<< 2) + (leaf_cnt <<< 1)) >>> r) >>> 1) (leaf_cnt >>> (r + 3))

/-- All operations of `merklize.hpp` orchestrator 1. -/
def orch1Ops (leaf_cnt : Nat) : List Op :=
  orch1LeafOps leaf_cnt ++
    (List.range (bin_log (leaf_cnt >>> 2))).flatMap (orch1RoundOps leaf_cnt)

/-- The root kernel `kernelMerklizationOrchestrator2` of `merklize.hpp`
(lines 449-460) and the root phase of the `utils.hpp` orchestrator
(lines 264-285 of its document): hash `intermediates[16..31]` and store the
digest at `intermediates[8..15]`. -/
def rootOp : Op := Op.mk Src.interSrc 16 8

/-- Program-order operation list of `merklize.hpp` `merklize`. -/
def merklizeHppOps (leaf_cnt : Nat) : List Op :=
  orch0Ops leaf_cnt ++ orch1Ops leaf_cnt ++ [rootOp]

/-- The single orchestrator of the `utils.hpp` variant, leaf phase:
`itr_cnt = leaf_cnt >> 1`, unguarded pairs. -/
def utilsLeafOps (leaf_cnt : Nat) : List Op :=
  pairLoopU Src.leavesSrc 0 ((leaf_cnt >>> 1) <<< 3) (leaf_cnt >>> 1)

/-- `utils.hpp` variant, intermediate round `r`: `itr_cnt = leaf_cnt >> (r+2)`. -/
def utilsRoundOps (leaf_cnt r : Nat) : List Op :=
  pairLoopU Src.interSrc ((leaf_cnt <<< 2) >>> r) (((leaf_cnt <<< 2) >>> r) >>> 1)
    (leaf_cnt >>> (r + 2))

/-- Program-order list of the hash operations the `utils.hpp` orchestrator
dispatches.  Its round count is `bin_log(leaf_cnt >> 1) - 1`; for
`leaf_cnt ≤ 2` the C++ `size_t` subtraction wraps to `2^64 - 1`, but every
such round has `itr_cnt = leaf_cnt >> (r+2) = 0` and contributes no
operation, so truncated `Nat` subtraction yields the same operation list.
This list is the memory effect of the call exactly when every dispatched
operation completes.  Unlike `merklize.hpp`, whose compute kernels are
unbounded `while (true)` servers, the `utils.hpp` workers execute bounded
round counts, so completion must be established against the pipe-level
model: `utils_traces_drain` proves it for every `leaf_cnt = 2^k` with
`k ≥ 2`, while at `leaf_cnt = 2` the pipes deadlock and the real call never
performs these operations (see the `utilsOrchTrace` facts proved below). -/
def utilsOps (leaf_cnt : Nat) : List Op :=
  utilsLeafOps leaf_cnt ++
    (List.range (bin_log (leaf_cnt >>> 1) - 1)).flatMap (utilsRoundOps leaf_cnt) ++
    [rootOp]

/-- Memory effect of `merklize.hpp` `merklize` on the intermediates buffer. -/
def merklizeHppRun (leaf_cnt : Nat) (leaves init : Buf) : Buf :=
  execOps leaves init (merklizeHppOps leaf_cnt)

/-- Memory effect of the `utils.hpp` `merklize` on the intermediates
buffer, under the completion precondition of `utilsOps`: faithful for every
`leaf_cnt = 2^k` with `k ≥ 2` (`utils_traces_drain`); at `leaf_cnt = 2` the
real call deadlocks before any store and never produces these contents. -/
def utilsRun (leaf_cnt : Nat) (leaves init : Buf) : Buf :=
  execOps leaves init (utilsOps leaf_cnt)

/-- The two precondition assertions of both `merklize` entry points, in source
order: `assert(i_size == o_size)` then `assert((leaf_cnt & (leaf_cnt-1)) == 0)`. -/
inductive MerklizeError
  | BufferSizeMismatch
  | InvalidLeafCount
deriving DecidableEq, Repr

/-- `merklize.hpp` `merklize` including its precondition assertions. -/
def merklizeHpp (leaf_cnt i_size o_size : Nat) (leaves init : Buf) :
    Except MerklizeError Buf :=
  if i_size ≠ o_size then Except.error MerklizeError.BufferSizeMismatch
  else if leaf_cnt &&& (leaf_cnt - 1) ≠ 0 then Except.error MerklizeError.InvalidLeafCount
  else Except.ok (merklizeHppRun leaf_cnt leaves init)

/-- The `utils.hpp` `merklize` including its precondition assertions (the
asserts run before any kernel is launched, so the error algebra is faithful
for every input; the `ok` payload carries the completed-run memory effect,
subject to the completion precondition noted at `utilsRun`). -/
def merklizeUtils (leaf_cnt i_size o_size : Nat) (leaves init : Buf) :
    Except MerklizeError Buf :=
  if i_size ≠ o_size then Except.error MerklizeError.BufferSizeMismatch
  else if leaf_cnt &&& (leaf_cnt - 1) ≠ 0 then Except.error MerklizeError.InvalidLeafCount
  else Except.ok (utilsRun leaf_cnt leaves init)

/-- Does every intermediate-sourced read of the operation list touch only
locations written by an earlier operation? -/
def opsReadSafe (ops : List Op) : Bool :=
  (ops.foldl
    (fun st op =>
      match st with
      | (ok, written) =>
        (ok && (match op.src with
                | Src.leavesSrc => true
                | Src.interSrc =>
                  (List.range 16).all (fun j => written.contains (op.i_off + j))),
         written ++ (List.range 8).map (fun j => op.o_off + j)))
    (true, ([] : List Nat))).1

/-!
Pipe-level model of the `utils.hpp` variant.  Unlike the `merklize.hpp`
compute kernels, which are unbounded `while (true)` servers, the two
`utils.hpp` compute kernels execute a bounded number of request/response
rounds: `kernelSHA256Hash0` runs `leaf_cnt >> 1` rounds on `ipipe0`/`opipe0`
and `kernelSHA256Hash1` runs `(leaf_cnt >> 1) - 1` rounds on
`ipipe1`/`opipe1`.  All four pipes are declared with capacity 0, so every
pipe access is a rendezvous between the orchestrator and the worker owning
that pipe.  Each 32-word request and each 8-word response is transferred by
identical uninterrupted loops on both endpoints, so one event per message
chunk preserves exactly which transfers can complete.
-/

/-- Pipe identifiers of the `utils.hpp` variant: `ip0`/`op0` connect the
orchestrator to `kernelSHA256Hash0`, `ip1`/`op1` to `kernelSHA256Hash1`. -/
inductive PipeId
  | ip0
  | op0
  | ip1
  | op1
deriving DecidableEq, Repr

/-- A pipe transaction performed by a kernel: writing or reading one message
chunk (a 32-word padded request or an 8-word digest response). -/
inductive Ev
  | wr (p : PipeId)
  | rd (p : PipeId)
deriving DecidableEq, Repr

/-- The pipe an event acts on. -/
def evPipe : Ev → PipeId
  | Ev.wr p => p
  | Ev.rd p => p

/-- A zero-capacity pipe write rendezvouses with a read of the same pipe. -/
def evMatch : Ev → Ev → Bool
  | Ev.wr p, Ev.rd q => decide (p = q)
  | Ev.rd p, Ev.wr q => decide (p = q)
  | _, _ => false

/-- The worker owning a pipe: `false` for the `kernelSHA256Hash0` pair,
`true` for the `kernelSHA256Hash1` pair.  In the source each pipe connects
the orchestrator with exactly one compute kernel. -/
def pipeOwner : PipeId → Bool
  | PipeId.ip0 => false
  | PipeId.op0 => false
  | PipeId.ip1 => true
  | PipeId.op1 => true

/-- Run the orchestrator's pipe trace against the two workers' traces under
zero-capacity rendezvous semantics, returning the unconsumed worker
suffixes.  Each orchestrator event blocks until it rendezvouses with the
next event of the worker owning that pipe; the workers never communicate
with each other, so an interleaved execution in which the orchestrator
completes a given trace exists if and only if this left-to-right matching
succeeds (each matched worker event is always that worker's next event, so
the greedy schedule never introduces a circular wait). -/
def drainRem : List Ev → List Ev → List Ev → Option (List Ev × List Ev)
  | [], w0, w1 => some (w0, w1)
  | e :: o, w0, w1 =>
    if pipeOwner (evPipe e) then
      match w1 with
      | e1 :: w1t => if evMatch e e1 then drainRem o w0 w1t else none
      | [] => none
    else
      match w0 with
      | e0 :: w0t => if evMatch e e0 then drainRem o w0t w1 else none
      | [] => none

/-- Can the orchestrator complete the given pipe trace against the two
worker traces? -/
def drainB (o w0 w1 : List Ev) : Bool := (drainRem o w0 w1).isSome

/-- Pipe events of the unguarded `utils.hpp` pair loop
(`for (i = 0; i < itr_cnt; i += 2)`): in each iteration the orchestrator
writes a padded message to `ipipe0`, writes one to `ipipe1`, then reads a
digest from `opipe0` and one from `opipe1` (the intermediates stores are not
pipe events). -/
def pairLoopUTraceAux (itr_cnt : Nat) : Nat → Nat → List Ev
  | _, 0 => []
  | i, fuel + 1 =>
    if i < itr_cnt then
      Ev.wr PipeId.ip0 :: Ev.wr PipeId.ip1 :: Ev.rd PipeId.op0 :: Ev.rd PipeId.op1 ::
        pairLoopUTraceAux itr_cnt (i + 2) fuel
    else []

/-- Unguarded pair-loop trace starting at `i = 0`. -/
def pairLoopUTrace (itr_cnt : Nat) : List Ev :=
  pairLoopUTraceAux itr_cnt 0 itr_cnt

/-- Full pipe trace of the `utils.hpp` orchestrator kernel: the leaf phase
with `itr_cnt = leaf_cnt >> 1`, the intermediate rounds with
`itr_cnt = leaf_cnt >> (r+2)`, then the root phase (one request on `ipipe0`,
one response from `opipe0`).  The round count is
`bin_log(leaf_cnt >> 1) - 1` exactly as in `utilsOps`, with the same
justification for truncated subtraction. -/
def utilsOrchTrace (leaf_cnt : Nat) : List Ev :=
  pairLoopUTrace (leaf_cnt >>> 1) ++
    (List.range (bin_log (leaf_cnt >>> 1) - 1)).flatMap
      (fun r => pairLoopUTrace (leaf_cnt >>> (r + 2))) ++
    [Ev.wr PipeId.ip0, Ev.rd PipeId.op0]

/-- Pipe trace of a `utils.hpp` compute worker serving `rds` bounded
request/response rounds on the pipe pair `pin`/`pout`: per round, read one
padded message, write one digest. -/
def serverTrace (pin pout : PipeId) : Nat → List Ev
  | 0 => []
  | rds + 1 => Ev.rd pin :: Ev.wr pout :: serverTrace pin pout rds

/-- `kernelSHA256Hash0` of `utils.hpp`: exactly `leaf_cnt >> 1` rounds on
`ipipe0`/`opipe0`. -/
def utilsWorker0Trace (leaf_cnt : Nat) : List Ev :=
  serverTrace PipeId.ip0 PipeId.op0 (leaf_cnt >>> 1)

/-- `kernelSHA256Hash1` of `utils.hpp`: exactly `(leaf_cnt >> 1) - 1` rounds
on `ipipe1`/`opipe1` (for `leaf_cnt ≤ 1` the C++ `size_t` subtraction wraps
around; the model's truncated subtraction agrees with the source for every
`leaf_cnt ≥ 2`). -/
def utilsWorker1Trace (leaf_cnt : Nat) : List Ev :=
  serverTrace PipeId.ip1 PipeId.op1 (leaf_cnt >>> 1 - 1)

/-!
Specification of the binary Merkle tree, in heap indexing: node `n`
(`1 ≤ n < N`, root `n = 1`) has children `2n` and `2n+1`; nodes `n` with
`N ≤ 2n` are leaf-adjacent and hash the 16 leaf-buffer words at
`16n - 8N` (the two adjacent 8-word leaves `2n - N` and `2n + 1 - N`).
Both orchestrator layouts store node `n` at words `[8n, 8n+8)` of the
intermediates buffer.
-/

/-- Value of tree node `n`, with recursion fuel. -/
def specNode (N : Nat) (leaves : Buf) : Nat → Nat → List Nat
  | 0, _ => []
  | fuel + 1, n =>
    if N ≤ 2 * n then hash (pad_input_message (read16 leaves (16 * n - 8 * N)))
    else hash (pad_input_message
      (specNode N leaves fuel (2 * n) ++ specNode N leaves fuel (2 * n + 1)))

/-- Value of tree node `n` (fuel `N` always suffices). -/
def specNodeT (N : Nat) (leaves : Buf) (n : Nat) : List Nat :=
  specNode N leaves N n

/-- The elementary hash operation that computes node `n`. -/
def nodeOp (N n : Nat) : Op :=
  if N ≤ 2 * n then Op.mk Src.leavesSrc (16 * n - 8 * N) (8 * n)
  else Op.mk Src.interSrc (16 * n) (8 * n)

/-- Intermediates buffer holding the specified values of the nodes listed in
`done` and the initial contents everywhere else. -/
def doneBuf (N : Nat) (leaves init : Buf) (done : List Nat) : Buf :=
  fun x => if x / 8 ∈ done then (specNodeT N leaves (x / 8)).getD (x % 8) 0 else init x

/-- Fully populated intermediates buffer. -/
def treeBuf (N : Nat) (leaves init : Buf) : Buf :=
  fun x => if 1 ≤ x / 8 ∧ x / 8 < N then (specNodeT N leaves (x / 8)).getD (x % 8) 0
           else init x

/-- A schedule (list of node indices to be hashed, in order) is good after
`done` when every scheduled node is a real node of the tree and its children
are among the already-computed nodes. -/
def goodSched (N : Nat) : List Nat → List Nat → Prop
  | _, [] => True
  | done, n :: rest =>
    (1 ≤ n ∧ n < N ∧ (N ≤ 2 * n ∨ (2 * n ∈ done ∧ 2 * n + 1 ∈ done))) ∧
      goodSched N (n :: done) rest

theorem sha_round_length (st : List Nat) (kw : Nat × Nat) (h : st.length = 8) :
    (sha_round st kw).length = 8 := by
  match st, h with
  | [a, b, c, d, e, f, g, hh], _ => rfl

theorem foldl_sha_round_length (l : List (Nat × Nat)) :
    ∀ st : List Nat, st.length = 8 → (l.foldl sha_round st).length = 8 := by
  induction l with
  | nil => intro st h; exact h
  | cons p t ih => intro st h; exact ih _ (sha_round_length st p h)

theorem compress_length (st block : List Nat) (h : st.length = 8) :
    (compress st block).length = 8 := by
  unfold compress
  rw [List.length_zipWith, foldl_sha_round_length _ _ h, h]
  simp

theorem hash_length (padded : List Nat) : (hash padded).length = 8 := by
  unfold hash
  exact compress_length _ _ (compress_length _ _ (by rfl))

theorem specNodeT_length (N : Nat) (leaves : Buf) (n : Nat) (hN : 1 ≤ N) :
    (specNodeT N leaves n).length = 8 := by
  obtain ⟨m, rfl⟩ : ∃ m, N = m + 1 := ⟨N - 1, by omega⟩
  unfold specNodeT specNode
  split <;> exact hash_length _

theorem specNode_fuel (N : Nat) (leaves : Buf) (heven : N % 2 = 0) :
    ∀ f1 : Nat, ∀ f2 n : Nat, 1 ≤ n → n < N → N ≤ 2 ^ f1 * n → N ≤ 2 ^ f2 * n →
      specNode N leaves f1 n = specNode N leaves f2 n := by
  intro f1
  induction f1 with
  | zero => intro f2 n h1 h2 h3 _; simp at h3; omega
  | succ f ih =>
    intro f2 n h1 h2 h3 h4
    match f2, h4 with
    | 0, h4 => simp at h4; omega
    | f2 + 1, h4 =>
      show specNode N leaves (f + 1) n = specNode N leaves (f2 + 1) n
      by_cases hle : N ≤ 2 * n
      · unfold specNode
        rw [if_pos hle, if_pos hle]
      · push_neg at hle
        have c1 : N ≤ 2 ^ f * (2 * n) := by
          rw [show 2 ^ f * (2 * n) = 2 ^ (f + 1) * n by ring]; exact h3
        have c2 : N ≤ 2 ^ f2 * (2 * n) := by
          rw [show 2 ^ f2 * (2 * n) = 2 ^ (f2 + 1) * n by ring]; exact h4
        have c1b : N ≤ 2 ^ f * (2 * n + 1) :=
          le_trans c1 (mul_le_mul_left' (by omega) (2 ^ f))
        have c2b : N ≤ 2 ^ f2 * (2 * n + 1) :=
          le_trans c2 (mul_le_mul_left' (by omega) (2 ^ f2))
        unfold specNode
        rw [if_neg (by omega), if_neg (by omega),
          ih f2 (2 * n) (by omega) (by omega) c1 c2,
          ih f2 (2 * n + 1) (by omega) (by omega) c1b c2b]

theorem read16_getD (b : Buf) (off i : Nat) (hi : i < 16) :
    (read16 b off).getD i 0 = b (off + i) := by
  simp [read16, List.getD_eq_getElem?_getD, List.getElem?_map, List.getElem?_range, hi]

theorem read16_length (b : Buf) (off : Nat) : (read16 b off).length = 16 := by
  simp [read16]

theorem pad_eq_of_getD (m1 m2 : List Nat)
    (h : ∀ i, i < 16 → m1.getD i 0 = m2.getD i 0) :
    pad_input_message m1 = pad_input_message m2 := by
  unfold pad_input_message
  congr 1
  apply List.map_congr_left
  intro i hi
  rw [List.mem_range] at hi
  exact h i hi

theorem specNodeT_leaf (N : Nat) (leaves : Buf) (n : Nat) (hN : 1 ≤ N)
    (h : N ≤ 2 * n) :
    specNodeT N leaves n = hash (pad_input_message (read16 leaves (16 * n - 8 * N))) := by
  obtain ⟨m, rfl⟩ : ∃ m, N = m + 1 := ⟨N - 1, by omega⟩
  unfold specNodeT specNode
  rw [if_pos h]

theorem specNodeT_internal (N : Nat) (leaves : Buf) (n : Nat) (heven : N % 2 = 0)
    (hn1 : 1 ≤ n) (h : 2 * n < N) :
    specNodeT N leaves n =
      hash (pad_input_message (specNodeT N leaves (2 * n) ++ specNodeT N leaves (2 * n + 1))) := by
  obtain ⟨m, hm⟩ : ∃ m, N = m + 1 := ⟨N - 1, by omega⟩
  have hNpow : N < 2 ^ N := Nat.lt_two_pow N
  have hc1 : N ≤ 2 ^ m * (2 * n) := by
    calc N ≤ 2 ^ N := le_of_lt hNpow
    _ = 2 ^ m * 2 := by rw [hm, pow_succ]
    _ ≤ 2 ^ m * (2 * n) := mul_le_mul_left' (by omega) _
  have hc2 : N ≤ 2 ^ N * (2 * n) := le_trans (le_of_lt hNpow) (Nat.le_mul_of_pos_right _ (by omega))
  have hc1b : N ≤ 2 ^ m * (2 * n + 1) := le_trans hc1 (mul_le_mul_left' (by omega) _)
  have hc2b : N ≤ 2 ^ N * (2 * n + 1) := le_trans hc2 (mul_le_mul_left' (by omega) _)
  conv_lhs => rw [specNodeT, hm]
  unfold specNode
  rw [if_neg (by omega), ← hm,
    specNode_fuel N leaves heven m N (2 * n) (by omega) (by omega) hc1 hc2,
    specNode_fuel N leaves heven m N (2 * n + 1) (by omega) (by omega) hc1b hc2b]
  rfl

theorem writeN_node (N : Nat) (leaves init : Buf) (done : List Nat) (n : Nat)
    (hN : 1 ≤ N) :
    writeN (doneBuf N leaves init done) (8 * n) (specNodeT N leaves n) =
      doneBuf N leaves init (n :: done) := by
  funext x
  unfold writeN doneBuf
  rw [specNodeT_length N leaves n hN]
  by_cases hx : 8 * n ≤ x ∧ x - 8 * n < 8
  · rw [if_pos hx]
    have hdiv : x / 8 = n := by omega
    have hmod : x - 8 * n = x % 8 := by omega
    rw [if_pos (by rw [hdiv]; exact List.mem_cons_self n done), hdiv, hmod]
  · rw [if_neg hx]
    have hne : x / 8 ≠ n := by omega
    by_cases hmem : x / 8 ∈ done
    · rw [if_pos hmem, if_pos (List.mem_cons_of_mem n hmem)]
    · rw [if_neg hmem, if_neg (by rw [List.mem_cons]; push_neg; exact ⟨hne, hmem⟩)]

theorem execOp_node (N : Nat) (leaves init : Buf) (done : List Nat) (n : Nat)
    (heven : N % 2 = 0) (hn1 : 1 ≤ n) (hnN : n < N)
    (hch : N ≤ 2 * n ∨ (2 * n ∈ done ∧ 2 * n + 1 ∈ done)) :
    execOp leaves (doneBuf N leaves init done) (nodeOp N n) =
      doneBuf N leaves init (n :: done) := by
  have hN : 1 ≤ N := by omega
  by_cases hle : N ≤ 2 * n
  · unfold execOp nodeOp
    rw [if_pos hle]
    show writeN _ (8 * n) (hash (pad_input_message (read16 leaves (16 * n - 8 * N)))) = _
    rw [← specNodeT_leaf N leaves n hN hle]
    exact writeN_node N leaves init done n hN
  · push_neg at hle
    obtain ⟨hm1, hm2⟩ : 2 * n ∈ done ∧ 2 * n + 1 ∈ done := by
      rcases hch with hcontra | hok
      · omega
      · exact hok
    unfold execOp nodeOp
    rw [if_neg (by omega)]
    show writeN _ (8 * n) (hash (pad_input_message (read16 (doneBuf N leaves init done) (16 * n)))) = _
    have hpad : pad_input_message (read16 (doneBuf N leaves init done) (16 * n)) =
        pad_input_message (specNodeT N leaves (2 * n) ++ specNodeT N leaves (2 * n + 1)) := by
      apply pad_eq_of_getD
      intro i hi
      rw [read16_getD _ _ _ hi]
      unfold doneBuf
      by_cases hsplit : i < 8
      · have hdiv : (16 * n + i) / 8 = 2 * n := by omega
        have hmod : (16 * n + i) % 8 = i := by omega
        rw [hdiv, hmod, if_pos hm1,
          List.getD_append _ _ _ _ (by rw [specNodeT_length N leaves _ hN]; omega)]
      · have hdiv : (16 * n + i) / 8 = 2 * n + 1 := by omega
        have hmod : (16 * n + i) % 8 = i - 8 := by omega
        rw [hdiv, hmod, if_pos hm2,
          List.getD_append_right _ _ _ _ (by rw [specNodeT_length N leaves _ hN]; omega),
          specNodeT_length N leaves _ hN]
    rw [hpad, ← specNodeT_internal N leaves n heven hn1 hle]
    exact writeN_node N leaves init done n hN

theorem exec_sched (N : Nat) (leaves init : Buf) (heven : N % 2 = 0) :
    ∀ sched done : List Nat, goodSched N done sched →
      execOps leaves (doneBuf N leaves init done) (sched.map (nodeOp N)) =
        doneBuf N leaves init (sched.reverse ++ done) := by
  intro sched
  induction sched with
  | nil => intro done _; simp [execOps]
  | cons n rest ih =>
    intro done hgood
    obtain ⟨⟨h1, h2, h3⟩, hrest⟩ := hgood
    show execOps leaves _ (nodeOp N n :: rest.map (nodeOp N)) = _
    unfold execOps
    rw [List.foldl_cons]
    rw [show List.foldl (execOp leaves) (execOp leaves (doneBuf N leaves init done) (nodeOp N n))
        (rest.map (nodeOp N)) =
        execOps leaves (execOp leaves (doneBuf N leaves init done) (nodeOp N n))
          (rest.map (nodeOp N)) from rfl]
    rw [execOp_node N leaves init done n heven h1 h2 h3, ih (n :: done) hrest]
    simp

theorem doneBuf_nil (N : Nat) (leaves init : Buf) : doneBuf N leaves init [] = init := by
  funext x
  simp [doneBuf]

theorem doneBuf_eq_treeBuf (N : Nat) (leaves init : Buf) (done : List Nat)
    (h : ∀ n : Nat, n ∈ done ↔ (1 ≤ n ∧ n < N)) :
    doneBuf N leaves init done = treeBuf N leaves init := by
  funext x
  unfold doneBuf treeBuf
  by_cases hx : 1 ≤ x / 8 ∧ x / 8 < N
  · rw [if_pos ((h (x / 8)).mpr hx), if_pos hx]
  · rw [if_neg (fun hmem => hx ((h (x / 8)).mp hmem)), if_neg hx]

theorem bin_logAux_spec :
    ∀ fuel n : Nat, 1 ≤ n → n ≤ fuel →
      2 ^ bin_logAux fuel n ≤ n ∧ n < 2 ^ (bin_logAux fuel n + 1) := by
  intro fuel
  induction fuel with
  | zero => intro n h1 h2; omega
  | succ f ih =>
    intro n h1 h2
    by_cases hn : 1 < n
    · have hrw : bin_logAux (f + 1) n = bin_logAux f (n >>> 1) + 1 := by
        simp [bin_logAux, hn]
      have hhalf : n >>> 1 = n / 2 := Nat.shiftRight_one n
      have ihh := ih (n / 2) (by omega) (by omega)
      rw [hrw, hhalf]
      constructor
      · rw [pow_succ]
        omega
      · rw [pow_succ] at ihh
        rw [pow_succ, pow_succ]
        omega
    · have hn1 : n = 1 := by omega
      have hrw : bin_logAux (f + 1) n = 0 := by
        simp [bin_logAux, hn]
      rw [hrw, hn1]
      omega

theorem bin_log_spec (n : Nat) (h : 1 ≤ n) :
    2 ^ bin_log n ≤ n ∧ n < 2 ^ (bin_log n + 1) :=
  bin_logAux_spec n n h le_rfl

theorem bin_log_two_pow (k : Nat) : bin_log (2 ^ k) = k := by
  obtain ⟨hl, hu⟩ := bin_log_spec (2 ^ k) (Nat.pos_pow_of_pos k (by norm_num))
  have h1 : bin_log (2 ^ k) ≤ k := (Nat.pow_le_pow_iff_right (by norm_num)).mp hl
  have h2 : k < bin_log (2 ^ k) + 1 := (Nat.pow_lt_pow_iff_right (by norm_num)).mp hu
  omega

theorem two_pow_shiftRight (k r : Nat) (h : r ≤ k) : 2 ^ k >>> r = 2 ^ (k - r) := by
  rw [Nat.shiftRight_eq_div_pow, Nat.pow_div h (by norm_num)]

theorem mul_two_pow_shiftRight (c k r : Nat) (h : r ≤ k) :
    (c * 2 ^ k) >>> r = c * 2 ^ (k - r) := by
  rw [Nat.shiftRight_eq_div_pow, Nat.mul_div_assoc c (pow_dvd_pow 2 h),
    Nat.pow_div h (by norm_num)]

theorem goodSched_mono (N : Nat) :
    ∀ (l d1 d2 : List Nat), (∀ x, x ∈ d1 → x ∈ d2) → goodSched N d1 l → goodSched N d2 l := by
  intro l
  induction l with
  | nil => intro d1 d2 _ _; trivial
  | cons n rest ih =>
    intro d1 d2 hsub hgood
    obtain ⟨⟨h1, h2, h3⟩, hrest⟩ := hgood
    refine ⟨⟨h1, h2, ?_⟩, ih (n :: d1) (n :: d2) ?_ hrest⟩
    · rcases h3 with h | ⟨ha, hb⟩
      · exact Or.inl h
      · exact Or.inr ⟨hsub _ ha, hsub _ hb⟩
    · intro x hx
      rcases List.mem_cons.mp hx with h | h
      · exact List.mem_cons.mpr (Or.inl h)
      · exact List.mem_cons.mpr (Or.inr (hsub _ h))

theorem goodSched_append (N : Nat) :
    ∀ (l1 l2 d : List Nat), goodSched N d l1 → goodSched N (l1.reverse ++ d) l2 →
      goodSched N d (l1 ++ l2) := by
  intro l1
  induction l1 with
  | nil => intro l2 d _ h2; simpa using h2
  | cons n t ih =>
    intro l2 d h1 h2
    obtain ⟨hn, ht⟩ := h1
    refine ⟨hn, ih l2 (n :: d) ht ?_⟩
    have : (n :: t).reverse ++ d = t.reverse ++ (n :: d) := by
      rw [List.reverse_cons, List.append_assoc]
      rfl
    rwa [this] at h2

theorem goodSched_level (N : Nat) :
    ∀ (cnt b : Nat) (d : List Nat),
      (∀ j, j < cnt →
        1 ≤ b + j ∧ b + j < N ∧
          (N ≤ 2 * (b + j) ∨ (2 * (b + j) ∈ d ∧ 2 * (b + j) + 1 ∈ d))) →
      goodSched N d (List.range' b cnt) := by
  intro cnt
  induction cnt with
  | zero => intro b d _; trivial
  | succ c ih =>
    intro b d h
    rw [List.range'_succ]
    refine ⟨by simpa using h 0 (by omega), ih (b + 1) (b :: d) ?_⟩
    intro j hj
    obtain ⟨h1, h2, h3⟩ := h (j + 1) (by omega)
    have hbj : b + 1 + j = b + (j + 1) := by omega
    rw [hbj]
    refine ⟨h1, h2, ?_⟩
    rcases h3 with h | ⟨ha, hb⟩
    · exact Or.inl h
    · exact Or.inr ⟨List.mem_cons_of_mem _ ha, List.mem_cons_of_mem _ hb⟩

theorem pairLoopUAux_eq (src : Src) (i_off o_off itr : Nat) (hpar : itr % 2 = 0) :
    ∀ fuel i : Nat, itr ≤ i + 2 * fuel → i % 2 = 0 →
      pairLoopUAux src i_off o_off itr i fuel =
        (List.range' i (itr - i)).map
          (fun j => Op.mk src (i_off + (j <<< 4)) (o_off + (j <<< 3))) := by
  intro fuel
  induction fuel with
  | zero =>
    intro i hle _
    have : itr - i = 0 := by omega
    rw [this]
    rfl
  | succ f ih =>
    intro i hle hieven
    by_cases hi : i < itr
    · have hcnt : itr - i = (itr - (i + 2)) + 1 + 1 := by omega
      rw [hcnt, List.range'_succ, List.range'_succ, List.map_cons, List.map_cons]
      show pairLoopUAux src i_off o_off itr i (f + 1) = _
      unfold pairLoopUAux
      rw [if_pos hi, ih (i + 2) (by omega) (by omega)]
    · have : itr - i = 0 := by omega
      rw [this]
      show pairLoopUAux src i_off o_off itr i (f + 1) = []
      unfold pairLoopUAux
      rw [if_neg hi]

theorem pairLoopAux_eq (src : Src) (i_off o_off itr : Nat) (hpar : itr ≤ 1 ∨ itr % 2 = 0) :
    ∀ fuel i : Nat, itr ≤ i + 2 * fuel → i % 2 = 0 →
      pairLoopAux src i_off o_off itr i fuel =
        (List.range' i (itr - i)).map
          (fun j => Op.mk src (i_off + (j <<< 4)) (o_off + (j <<< 3))) := by
  intro fuel
  induction fuel with
  | zero =>
    intro i hle _
    have : itr - i = 0 := by omega
    rw [this]
    rfl
  | succ f ih =>
    intro i hle hieven
    by_cases hi : i < itr
    · by_cases hone : 1 < itr
      · have hcnt : itr - i = (itr - (i + 2)) + 1 + 1 := by omega
        rw [hcnt, List.range'_succ, List.range'_succ, List.map_cons, List.map_cons]
        show pairLoopAux src i_off o_off itr i (f + 1) = _
        unfold pairLoopAux
        rw [if_pos hi, if_pos hone, ih (i + 2) (by omega) (by omega)]
        rfl
      · have hitr1 : itr = 1 := by omega
        have hi0 : i = 0 := by omega
        subst hitr1 hi0
        have hrec : pairLoopAux src i_off o_off 1 2 f = [] := by
          cases f with
          | zero => rfl
          | succ f2 =>
            show pairLoopAux src i_off o_off 1 2 (f2 + 1) = []
            unfold pairLoopAux
            rw [if_neg (by omega)]
        show pairLoopAux src i_off o_off 1 0 (f + 1) = _
        unfold pairLoopAux
        rw [if_pos (by omega), if_neg (by omega), hrec]
        rfl
    · have : itr - i = 0 := by omega
      rw [this]
      show pairLoopAux src i_off o_off itr i (f + 1) = []
      unfold pairLoopAux
      rw [if_neg hi]

theorem pairLoopU_eq (src : Src) (i_off o_off itr : Nat) (hpar : itr % 2 = 0) :
    pairLoopU src i_off o_off itr =
      (List.range' 0 itr).map
        (fun j => Op.mk src (i_off + (j <<< 4)) (o_off + (j <<< 3))) := by
  have h := pairLoopUAux_eq src i_off o_off itr hpar itr 0 (by omega) (by omega)
  simpa [pairLoopU] using h

theorem pairLoop_eq (src : Src) (i_off o_off itr : Nat) (hpar : itr ≤ 1 ∨ itr % 2 = 0) :
    pairLoop src i_off o_off itr =
      (List.range' 0 itr).map
        (fun j => Op.mk src (i_off + (j <<< 4)) (o_off + (j <<< 3))) := by
  have h := pairLoopAux_eq src i_off o_off itr hpar itr 0 (by omega) (by omega)
  simpa [pairLoop] using h

theorem flatMap_congr {α β : Type} (l : List α) (f g : α → List β)
    (h : ∀ x ∈ l, f x = g x) : l.flatMap f = l.flatMap g := by
  induction l with
  | nil => rfl
  | cons a t ih =>
    rw [List.flatMap_cons, List.flatMap_cons, h a (List.mem_cons_self a t),
      ih (fun x hx => h x (List.mem_cons_of_mem a hx))]

theorem map_flatMap {α β γ : Type} (l : List α) (f : α → List β) (g : β → γ) :
    (l.flatMap f).map g = l.flatMap (fun x => (f x).map g) := by
  induction l with
  | nil => rfl
  | cons a t ih =>
    rw [List.flatMap_cons, List.flatMap_cons, List.map_append, ih]

theorem two_pow_parity (e : Nat) : 2 ^ e ≤ 1 ∨ 2 ^ e % 2 = 0 := by
  cases e with
  | zero => exact Or.inl (by norm_num)
  | succ m => exact Or.inr (by rw [pow_succ]; omega)

theorem two_pow_even (e : Nat) (he : 1 ≤ e) : 2 ^ e % 2 = 0 := by
  obtain ⟨m, rfl⟩ : ∃ m, e = m + 1 := ⟨e - 1, by omega⟩
  rw [pow_succ]
  omega

theorem nodeOp_level_leaves (N b itr i_off o_off : Nat) (hb : N ≤ 2 * b)
    (hio : i_off = 16 * b - 8 * N) (hoo : o_off = 8 * b) :
    (List.range' 0 itr).map
        (fun j => Op.mk Src.leavesSrc (i_off + (j <<< 4)) (o_off + (j <<< 3))) =
      (List.range' b itr).map (nodeOp N) := by
  rw [← List.range_eq_range', List.range'_eq_map_range, List.map_map]
  apply List.map_congr_left
  intro j _
  show Op.mk Src.leavesSrc (i_off + (j <<< 4)) (o_off + (j <<< 3)) = nodeOp N (b + j)
  unfold nodeOp
  rw [if_pos (by omega)]
  rw [Nat.shiftLeft_eq, Nat.shiftLeft_eq]
  norm_num
  constructor
  · omega
  · omega

theorem nodeOp_level_inter (N b itr i_off o_off : Nat)
    (hb : 2 * (b + itr) ≤ N) (hio : i_off = 16 * b) (hoo : o_off = 8 * b) :
    (List.range' 0 itr).map
        (fun j => Op.mk Src.interSrc (i_off + (j <<< 4)) (o_off + (j <<< 3))) =
      (List.range' b itr).map (nodeOp N) := by
  rw [← List.range_eq_range', List.range'_eq_map_range, List.map_map]
  apply List.map_congr_left
  intro j hj
  rw [List.mem_range] at hj
  show Op.mk Src.interSrc (i_off + (j <<< 4)) (o_off + (j <<< 3)) = nodeOp N (b + j)
  unfold nodeOp
  rw [if_neg (by omega)]
  rw [Nat.shiftLeft_eq, Nat.shiftLeft_eq]
  norm_num
  constructor
  · omega
  · omega

/-- Node schedule realized by the `utils.hpp` orchestrator: the leaf-adjacent
level `[2^(k-1), 2^k)` in increasing order, then each higher level in full,
then the root. -/
def utilsSched (k : Nat) : List Nat :=
  List.range' (2 ^ (k - 1)) (2 ^ (k - 1)) ++
    (List.range (k - 2)).flatMap
      (fun r => List.range' (2 ^ (k - 2 - r)) (2 ^ (k - 2 - r))) ++ [1]

theorem rootOp_eq_nodeOp (N : Nat) (h : 4 ≤ N) : rootOp = nodeOp N 1 := by
  unfold rootOp nodeOp
  rw [if_neg (by omega)]

theorem four_le_two_pow (k : Nat) (hk : 2 ≤ k) : 4 ≤ 2 ^ k := by
  calc (4 : Nat) = 2 ^ 2 := by norm_num
  _ ≤ 2 ^ k := Nat.pow_le_pow_right (by norm_num) hk

theorem utilsLeafOps_eq (k : Nat) (hk : 2 ≤ k) :
    utilsLeafOps (2 ^ k) =
      (List.range' (2 ^ (k - 1)) (2 ^ (k - 1))).map (nodeOp (2 ^ k)) := by
  have hsr : 2 ^ k >>> 1 = 2 ^ (k - 1) := two_pow_shiftRight k 1 (by omega)
  have hsplit : (2 : Nat) ^ k = 2 * 2 ^ (k - 1) := by
    rw [show k = 1 + (k - 1) by omega, pow_add]
    norm_num
  unfold utilsLeafOps
  rw [hsr, pairLoopU_eq _ _ _ _ (two_pow_even (k - 1) (by omega))]
  apply nodeOp_level_leaves
  · omega
  · omega
  · rw [Nat.shiftLeft_eq]
    ring

theorem utilsRoundOps_eq (k r : Nat) (hk : 2 ≤ k) (hr : r < k - 2) :
    utilsRoundOps (2 ^ k) r =
      (List.range' (2 ^ (k - 2 - r)) (2 ^ (k - 2 - r))).map (nodeOp (2 ^ k)) := by
  have hi : (2 ^ k <<< 2) >>> r = 2 ^ (k + 2 - r) := by
    rw [Nat.shiftLeft_eq, ← pow_add, two_pow_shiftRight _ _ (by omega)]
  have hitr : 2 ^ k >>> (r + 2) = 2 ^ (k - 2 - r) := by
    rw [two_pow_shiftRight _ _ (by omega)]
    congr 1
    omega
  have ho : 2 ^ (k + 2 - r) >>> 1 = 2 ^ (k + 1 - r) := by
    rw [two_pow_shiftRight _ _ (by omega)]
    congr 1
    omega
  have hlink1 : (2 : Nat) ^ (k + 2 - r) = 16 * 2 ^ (k - 2 - r) := by
    rw [show k + 2 - r = 4 + (k - 2 - r) by omega, pow_add]
    norm_num
  have hlink2 : (2 : Nat) ^ (k + 1 - r) = 8 * 2 ^ (k - 2 - r) := by
    rw [show k + 1 - r = 3 + (k - 2 - r) by omega, pow_add]
    norm_num
  have hlink3 : (2 : Nat) ^ k = 4 * 2 ^ (k - 2 - r) * 2 ^ r := by
    conv_lhs => rw [show k = 2 + (k - 2 - r) + r by omega]
    rw [pow_add, pow_add]
    norm_num
  have hbound : 2 * (2 ^ (k - 2 - r) + 2 ^ (k - 2 - r)) ≤ 2 ^ k := by
    rw [hlink3]
    have hpr : 1 ≤ 2 ^ r := Nat.one_le_two_pow
    nlinarith
  unfold utilsRoundOps
  rw [hi, ho, hitr, pairLoopU_eq _ _ _ _ (two_pow_even (k - 2 - r) (by omega))]
  apply nodeOp_level_inter
  · exact hbound
  · omega
  · omega

theorem utilsOps_eq (k : Nat) (hk : 2 ≤ k) :
    utilsOps (2 ^ k) = (utilsSched k).map (nodeOp (2 ^ k)) := by
  have hrounds : bin_log (2 ^ k >>> 1) - 1 = k - 2 := by
    rw [two_pow_shiftRight k 1 (by omega), bin_log_two_pow]
    omega
  unfold utilsOps utilsSched
  rw [hrounds, List.map_append, List.map_append, map_flatMap,
    utilsLeafOps_eq k hk]
  congr 1
  congr 1
  · apply flatMap_congr
    intro r hr
    rw [List.mem_range] at hr
    exact utilsRoundOps_eq k r hk hr
  · rw [List.map_singleton, ← rootOp_eq_nodeOp _ (four_le_two_pow k hk)]

/-- Node schedule realized by `merklize.hpp` orchestrator 0: the lower half of
each level, i.e. the subtree below node 2, bottom level first. -/
def orch0Sched (k : Nat) : List Nat :=
  List.range' (2 * 2 ^ (k - 2)) (2 ^ (k - 2)) ++
    (List.range (k - 2)).flatMap
      (fun r => List.range' (2 * 2 ^ (k - 3 - r)) (2 ^ (k - 3 - r)))

/-- Node schedule realized by `merklize.hpp` orchestrator 1: the upper half of
each level, i.e. the subtree below node 3, bottom level first. -/
def orch1Sched (k : Nat) : List Nat :=
  List.range' (3 * 2 ^ (k - 2)) (2 ^ (k - 2)) ++
    (List.range (k - 2)).flatMap
      (fun r => List.range' (3 * 2 ^ (k - 3 - r)) (2 ^ (k - 3 - r)))

/-- Node schedule realized by `merklize.hpp` `merklize` as a whole. -/
def hppSched (k : Nat) : List Nat := orch0Sched k ++ orch1Sched k ++ [1]

theorem orch0LeafOps_eq (k : Nat) (hk : 2 ≤ k) :
    orch0LeafOps (2 ^ k) =
      (List.range' (2 * 2 ^ (k - 2)) (2 ^ (k - 2))).map (nodeOp (2 ^ k)) := by
  have h8 : (2 : Nat) ^ 3 = 8 := by norm_num
  have hsr1 : 2 ^ k >>> 1 = 2 ^ (k - 1) := two_pow_shiftRight k 1 (by omega)
  have hsr2 : 2 ^ k >>> 2 = 2 ^ (k - 2) := two_pow_shiftRight k 2 (by omega)
  have hsplit : (2 : Nat) ^ k = 4 * 2 ^ (k - 2) := by
    conv_lhs => rw [show k = 2 + (k - 2) by omega]
    rw [pow_add]
    norm_num
  have hsplit1 : (2 : Nat) ^ (k - 1) = 2 * 2 ^ (k - 2) := by
    conv_lhs => rw [show k - 1 = 1 + (k - 2) by omega]
    rw [pow_add]
    norm_num
  unfold orch0LeafOps
  rw [hsr1, hsr2, pairLoop_eq _ _ _ _ (two_pow_parity (k - 2))]
  apply nodeOp_level_leaves
  · omega
  · omega
  · rw [Nat.shiftLeft_eq, h8]
    omega

theorem orch0RoundOps_eq (k r : Nat) (hk : 2 ≤ k) (hr : r < k - 2) :
    orch0RoundOps (2 ^ k) r =
      (List.range' (2 * 2 ^ (k - 3 - r)) (2 ^ (k - 3 - r))).map (nodeOp (2 ^ k)) := by
  have hi : (2 ^ k <<< 2) >>> r = 2 ^ (k + 2 - r) := by
    rw [Nat.shiftLeft_eq, ← pow_add, two_pow_shiftRight _ _ (by omega)]
  have ho : 2 ^ (k + 2 - r) >>> 1 = 2 ^ (k + 1 - r) := by
    rw [two_pow_shiftRight _ _ (by omega)]
    congr 1
    omega
  have hitr : 2 ^ k >>> (r + 3) = 2 ^ (k - 3 - r) := by
    rw [two_pow_shiftRight _ _ (by omega)]
    congr 1
    omega
  have hlink1 : (2 : Nat) ^ (k + 2 - r) = 32 * 2 ^ (k - 3 - r) := by
    conv_lhs => rw [show k + 2 - r = 5 + (k - 3 - r) by omega]
    rw [pow_add]
    norm_num
  have hlink2 : (2 : Nat) ^ (k + 1 - r) = 16 * 2 ^ (k - 3 - r) := by
    conv_lhs => rw [show k + 1 - r = 4 + (k - 3 - r) by omega]
    rw [pow_add]
    norm_num
  have hlink3 : (2 : Nat) ^ k = 8 * 2 ^ (k - 3 - r) * 2 ^ r := by
    conv_lhs => rw [show k = 3 + (k - 3 - r) + r by omega]
    rw [pow_add, pow_add]
    norm_num
  have hbound : 2 * (2 * 2 ^ (k - 3 - r) + 2 ^ (k - 3 - r)) ≤ 2 ^ k := by
    rw [hlink3]
    have hpr : 1 ≤ 2 ^ r := Nat.one_le_two_pow
    nlinarith
  unfold orch0RoundOps
  rw [hi, ho, hitr, pairLoop_eq _ _ _ _ (two_pow_parity (k - 3 - r))]
  apply nodeOp_level_inter
  · exact hbound
  · omega
  · omega

theorem orch0Ops_eq (k : Nat) (hk : 2 ≤ k) :
    orch0Ops (2 ^ k) = (orch0Sched k).map (nodeOp (2 ^ k)) := by
  have hrounds : bin_log (2 ^ k >>> 2) = k - 2 := by
    rw [two_pow_shiftRight k 2 (by omega), bin_log_two_pow]
  unfold orch0Ops orch0Sched
  rw [hrounds, List.map_append, map_flatMap, orch0LeafOps_eq k hk]
  congr 1
  apply flatMap_congr
  intro r hr
  rw [List.mem_range] at hr
  exact orch0RoundOps_eq k r hk hr

theorem orch1LeafOps_eq (k : Nat) (hk : 2 ≤ k) :
    orch1LeafOps (2 ^ k) =
      (List.range' (3 * 2 ^ (k - 2)) (2 ^ (k - 2))).map (nodeOp (2 ^ k)) := by
  have h8 : (2 : Nat) ^ 3 = 8 := by norm_num
  have hsr1 : 2 ^ k >>> 1 = 2 ^ (k - 1) := two_pow_shiftRight k 1 (by omega)
  have hsr2 : 2 ^ k >>> 2 = 2 ^ (k - 2) := two_pow_shiftRight k 2 (by omega)
  have hsplit : (2 : Nat) ^ k = 4 * 2 ^ (k - 2) := by
    conv_lhs => rw [show k = 2 + (k - 2) by omega]
    rw [pow_add]
    norm_num
  have hsplit1 : (2 : Nat) ^ (k - 1) = 2 * 2 ^ (k - 2) := by
    conv_lhs => rw [show k - 1 = 1 + (k - 2) by omega]
    rw [pow_add]
    norm_num
  have hi4 : (2 : Nat) ^ (k - 1) <<< 3 = 16 * 2 ^ (k - 2) := by
    rw [Nat.shiftLeft_eq, h8]
    omega
  have hi5 : (16 * 2 ^ (k - 2)) >>> 1 = 8 * 2 ^ (k - 2) := by
    rw [Nat.shiftRight_one]
    omega
  unfold orch1LeafOps
  rw [hsr1, hsr2, hi4, hi5, pairLoop_eq _ _ _ _ (two_pow_parity (k - 2))]
  apply nodeOp_level_leaves
  · omega
  · omega
  · omega

theorem orch1RoundOps_eq (k r : Nat) (hk : 2 ≤ k) (hr : r < k - 2) :
    orch1RoundOps (2 ^ k) r =
      (List.range' (3 * 2 ^ (k - 3 - r)) (2 ^ (k - 3 - r))).map (nodeOp (2 ^ k)) := by
  have hiA : (2 : Nat) ^ k <<< 2 = 2 ^ (k + 2) := by
    rw [Nat.shiftLeft_eq, ← pow_add]
  have hiB : (2 : Nat) ^ k <<< 1 = 2 ^ (k + 1) := by
    rw [Nat.shiftLeft_eq, ← pow_add]
  have hsum : (2 : Nat) ^ (k + 2) + 2 ^ (k + 1) = 3 * 2 ^ (k + 1) := by
    rw [pow_succ]
    · omega
  have hi : ((2 ^ k <<< 2) + (2 ^ k <<< 1)) >>> r = 3 * 2 ^ (k + 1 - r) := by
    rw [hiA, hiB, hsum, mul_two_pow_shiftRight _ _ _ (by omega)]
  have ho : (3 * 2 ^ (k + 1 - r)) >>> 1 = 3 * 2 ^ (k - r) := by
    rw [mul_two_pow_shiftRight _ _ _ (by omega), show k + 1 - r - 1 = k - r by omega]
  have hitr : 2 ^ k >>> (r + 3) = 2 ^ (k - 3 - r) := by
    rw [two_pow_shiftRight _ _ (by omega)]
    congr 1
    omega
  have hlink1 : (2 : Nat) ^ (k + 1 - r) = 16 * 2 ^ (k - 3 - r) := by
    conv_lhs => rw [show k + 1 - r = 4 + (k - 3 - r) by omega]
    rw [pow_add]
    norm_num
  have hlink2 : (2 : Nat) ^ (k - r) = 8 * 2 ^ (k - 3 - r) := by
    conv_lhs => rw [show k - r = 3 + (k - 3 - r) by omega]
    rw [pow_add]
    norm_num
  have hlink3 : (2 : Nat) ^ k = 8 * 2 ^ (k - 3 - r) * 2 ^ r := by
    conv_lhs => rw [show k = 3 + (k - 3 - r) + r by omega]
    rw [pow_add, pow_add]
    norm_num
  have hbound : 2 * (3 * 2 ^ (k - 3 - r) + 2 ^ (k - 3 - r)) ≤ 2 ^ k := by
    rw [hlink3]
    have hpr : 1 ≤ 2 ^ r := Nat.one_le_two_pow
    nlinarith
  unfold orch1RoundOps
  rw [hi, ho, hitr, pairLoop_eq _ _ _ _ (two_pow_parity (k - 3 - r))]
  apply nodeOp_level_inter
  · exact hbound
  · omega
  · omega

theorem orch1Ops_eq (k : Nat) (hk : 2 ≤ k) :
    orch1Ops (2 ^ k) = (orch1Sched k).map (nodeOp (2 ^ k)) := by
  have hrounds : bin_log (2 ^ k >>> 2) = k - 2 := by
    rw [two_pow_shiftRight k 2 (by omega), bin_log_two_pow]
  unfold orch1Ops orch1Sched
  rw [hrounds, List.map_append, map_flatMap, orch1LeafOps_eq k hk]
  congr 1
  apply flatMap_congr
  intro r hr
  rw [List.mem_range] at hr
  exact orch1RoundOps_eq k r hk hr

theorem hppOps_eq (k : Nat) (hk : 2 ≤ k) :
    merklizeHppOps (2 ^ k) = (hppSched k).map (nodeOp (2 ^ k)) := by
  unfold merklizeHppOps hppSched
  rw [List.map_append, List.map_append, orch0Ops_eq k hk, orch1Ops_eq k hk,
    List.map_singleton, ← rootOp_eq_nodeOp _ (four_le_two_pow k hk)]

instance goodSchedDec (N : Nat) : ∀ (done l : List Nat), Decidable (goodSched N done l)
  | _, [] => isTrue trivial
  | done, n :: rest => by
    haveI := goodSchedDec N (n :: done) rest
    unfold goodSched
    exact instDecidableAnd

theorem mem_range1 (s n m : Nat) : m ∈ List.range' s n ↔ s ≤ m ∧ m < s + n := by
  rw [List.mem_range']
  constructor
  · rintro ⟨i, hi, rfl⟩
    omega
  · rintro ⟨h1, h2⟩
    exact ⟨m - s, by omega, by omega⟩

theorem flatMap_map {α β γ : Type} (l : List α) (g : α → β) (f : β → List γ) :
    (l.map g).flatMap f = l.flatMap (fun x => f (g x)) := by
  induction l with
  | nil => rfl
  | cons a t ih => rw [List.map_cons, List.flatMap_cons, List.flatMap_cons, ih]

theorem goodSched_desc_t (N t : Nat) (ht : 1 ≤ t) :
    ∀ (j : Nat), ∀ (c : Nat) (done : List Nat),
      (1 ≤ j → (t + 1) * 2 ^ (c + 1) ≤ N) →
      (1 ≤ j → ∀ x, t * 2 ^ (c + 1) ≤ x → x < (t + 1) * 2 ^ (c + 1) → x ∈ done) →
      j ≤ c + 1 →
      goodSched N done
        ((List.range j).flatMap (fun r => List.range' (t * 2 ^ (c - r)) (2 ^ (c - r)))) := by
  intro j
  induction j with
  | zero => intro c done _ _ _; trivial
  | succ j ih =>
    intro c done hN hch hj
    have hNs := hN (by omega)
    have hchs := hch (by omega)
    have hB : (2 : Nat) ^ (c + 1) = 2 * 2 ^ c := by
      rw [pow_succ]
      ring
    rw [List.range_succ_eq_map, List.flatMap_cons, flatMap_map]
    have hblocks :
        (List.range j).flatMap
            (fun r => List.range' (t * 2 ^ (c - (r + 1))) (2 ^ (c - (r + 1)))) =
          (List.range j).flatMap
            (fun r => List.range' (t * 2 ^ (c - 1 - r)) (2 ^ (c - 1 - r))) := by
      apply flatMap_congr
      intro r _
      rw [show c - (r + 1) = c - 1 - r by omega]
    rw [Nat.sub_zero, hblocks]
    apply goodSched_append
    · apply goodSched_level
      intro i hi
      have hA : 1 ≤ 2 ^ c := Nat.one_le_two_pow
      refine ⟨by nlinarith, by nlinarith, Or.inr ⟨?_, ?_⟩⟩
      · exact hchs _ (by nlinarith) (by nlinarith)
      · exact hchs _ (by nlinarith) (by nlinarith)
    · apply ih (c - 1)
      · intro hj1
        by_cases hc : c = 0
        · omega
        · have : (t + 1) * 2 ^ (c - 1 + 1) ≤ (t + 1) * 2 ^ (c + 1) :=
            mul_le_mul_left' (Nat.pow_le_pow_right (by norm_num) (by omega)) _
          omega
      · intro hj1 x hx1 hx2
        by_cases hc : c = 0
        · omega
        · have hc1 : c - 1 + 1 = c := by omega
          rw [hc1] at hx1 hx2
          apply List.mem_append.mpr
          apply Or.inl
          rw [List.mem_reverse, mem_range1]
          constructor
          · exact hx1
          · have : t * 2 ^ c + 2 ^ c = (t + 1) * 2 ^ c := by ring
            omega
      · omega

theorem utilsSched_goodSched (k : Nat) (hk : 2 ≤ k) :
    goodSched (2 ^ k) [] (utilsSched k) := by
  have hsplit : (2 : Nat) ^ k = 2 * 2 ^ (k - 1) := by
    conv_lhs => rw [show k = 1 + (k - 1) by omega]
    rw [pow_add]
    norm_num
  have hmerge :
      (List.range (k - 2)).flatMap
          (fun r => List.range' (2 ^ (k - 2 - r)) (2 ^ (k - 2 - r))) ++ [1] =
        (List.range (k - 1)).flatMap
          (fun r => List.range' (1 * 2 ^ (k - 2 - r)) (2 ^ (k - 2 - r))) := by
    rw [show k - 1 = (k - 2) + 1 by omega, List.range_succ, List.flatMap_append]
    congr 1
    · apply flatMap_congr
      intro r _
      rw [one_mul]
    · rw [List.flatMap_cons, List.flatMap_nil, List.append_nil,
        show k - 2 - (k - 2) = 0 by omega]
      rfl
  unfold utilsSched
  rw [List.append_assoc, hmerge]
  apply goodSched_append
  · apply goodSched_level
    intro j hj
    have hA : 1 ≤ (2 : Nat) ^ (k - 1) := Nat.one_le_two_pow
    refine ⟨by omega, by omega, Or.inl (by omega)⟩
  · apply goodSched_desc_t (2 ^ k) 1 (by norm_num) (k - 1) (k - 2)
    · intro _
      have h1 : (1 + 1) * 2 ^ (k - 2 + 1) = 2 ^ k := by
        rw [show k - 2 + 1 = k - 1 by omega]
        omega
      omega
    · intro _ x hx1 hx2
      rw [show k - 2 + 1 = k - 1 by omega] at hx1 hx2
      apply List.mem_append.mpr
      apply Or.inl
      rw [List.mem_reverse, mem_range1]
      omega
    · omega

theorem two_mem_orch0Sched (k : Nat) (hk : 2 ≤ k) : 2 ∈ orch0Sched k := by
  by_cases hk2 : k = 2
  · subst hk2
    decide
  · apply List.mem_append.mpr
    apply Or.inr
    apply List.mem_flatMap.mpr
    refine ⟨k - 3, ?_, ?_⟩
    · rw [List.mem_range]
      omega
    · rw [show k - 3 - (k - 3) = 0 by omega, mem_range1]
      norm_num

theorem three_mem_orch1Sched (k : Nat) (hk : 2 ≤ k) : 3 ∈ orch1Sched k := by
  by_cases hk2 : k = 2
  · subst hk2
    decide
  · apply List.mem_append.mpr
    apply Or.inr
    apply List.mem_flatMap.mpr
    refine ⟨k - 3, ?_, ?_⟩
    · rw [List.mem_range]
      omega
    · rw [show k - 3 - (k - 3) = 0 by omega, mem_range1]
      norm_num

theorem hppSched_goodSched (k : Nat) (hk : 2 ≤ k) :
    goodSched (2 ^ k) [] (hppSched k) := by
  have hsplit : (2 : Nat) ^ k = 4 * 2 ^ (k - 2) := by
    conv_lhs => rw [show k = 2 + (k - 2) by omega]
    rw [pow_add]
    norm_num
  have hA : 1 ≤ (2 : Nat) ^ (k - 2) := Nat.one_le_two_pow
  have hleaf0 : goodSched (2 ^ k) [] (List.range' (2 * 2 ^ (k - 2)) (2 ^ (k - 2))) := by
    apply goodSched_level
    intro j hj
    refine ⟨by omega, by omega, Or.inl (by omega)⟩
  have hdesc0 : ∀ done : List Nat,
      (∀ x, 2 * 2 ^ (k - 2) ≤ x → x < 3 * 2 ^ (k - 2) → x ∈ done) →
      goodSched (2 ^ k) done
        ((List.range (k - 2)).flatMap
          (fun r => List.range' (2 * 2 ^ (k - 3 - r)) (2 ^ (k - 3 - r)))) := by
    intro done hch
    apply goodSched_desc_t (2 ^ k) 2 (by norm_num) (k - 2) (k - 3)
    · intro hj1
      have hc1 : k - 3 + 1 = k - 2 := by omega
      rw [hc1]
      omega
    · intro hj1 x hx1 hx2
      have hc1 : k - 3 + 1 = k - 2 := by omega
      rw [hc1] at hx1 hx2
      exact hch x hx1 hx2
    · omega
  have hleaf1 : ∀ done : List Nat,
      goodSched (2 ^ k) done (List.range' (3 * 2 ^ (k - 2)) (2 ^ (k - 2))) := by
    intro done
    apply goodSched_level
    intro j hj
    refine ⟨by omega, by omega, Or.inl (by omega)⟩
  have hdesc1 : ∀ done : List Nat,
      (∀ x, 3 * 2 ^ (k - 2) ≤ x → x < 4 * 2 ^ (k - 2) → x ∈ done) →
      goodSched (2 ^ k) done
        ((List.range (k - 2)).flatMap
          (fun r => List.range' (3 * 2 ^ (k - 3 - r)) (2 ^ (k - 3 - r)))) := by
    intro done hch
    apply goodSched_desc_t (2 ^ k) 3 (by norm_num) (k - 2) (k - 3)
    · intro hj1
      have hc1 : k - 3 + 1 = k - 2 := by omega
      rw [hc1]
      omega
    · intro hj1 x hx1 hx2
      have hc1 : k - 3 + 1 = k - 2 := by omega
      rw [hc1] at hx1 hx2
      exact hch x hx1 hx2
    · omega
  unfold hppSched orch0Sched orch1Sched
  rw [List.append_assoc]
  apply goodSched_append
  · apply goodSched_append
    · exact hleaf0
    · apply hdesc0
      intro x hx1 hx2
      apply List.mem_append.mpr
      apply Or.inl
      rw [List.mem_reverse, mem_range1]
      omega
  · rw [List.append_assoc]
    apply goodSched_append
    · apply hleaf1
    · apply goodSched_append
      · apply hdesc1
        intro x hx1 hx2
        apply List.mem_append.mpr
        apply Or.inl
        rw [List.mem_reverse, mem_range1]
        omega
      · refine ⟨⟨by omega, by omega, Or.inr ⟨?_, ?_⟩⟩, trivial⟩
        · have h2 : 2 ∈ orch0Sched k := two_mem_orch0Sched k hk
          unfold orch0Sched at h2
          simp only [List.mem_append, List.mem_reverse] at h2 ⊢
          tauto
        · have h3 : 3 ∈ orch1Sched k := three_mem_orch1Sched k hk
          unfold orch1Sched at h3
          simp only [List.mem_append, List.mem_reverse] at h3 ⊢
          tauto

theorem bin_log_ge_one (n : Nat) (h : 2 ≤ n) : 1 ≤ bin_log n := by
  obtain ⟨_, hu⟩ := bin_log_spec n (by omega)
  by_contra hc
  push_neg at hc
  have hb : bin_log n = 0 := by omega
  rw [hb] at hu
  norm_num at hu
  omega

theorem bin_log_lt (n k : Nat) (h1 : 1 ≤ n) (h2 : n < 2 ^ k) : bin_log n < k := by
  obtain ⟨hl, _⟩ := bin_log_spec n h1
  have : (2 : Nat) ^ bin_log n < 2 ^ k := lt_of_le_of_lt hl h2
  exact (Nat.pow_lt_pow_iff_right (by norm_num)).mp this

theorem utilsSched_mem_iff (k : Nat) (hk : 2 ≤ k) (n : Nat) :
    n ∈ utilsSched k ↔ (1 ≤ n ∧ n < 2 ^ k) := by
  have hsplit : (2 : Nat) ^ k = 2 * 2 ^ (k - 1) := by
    conv_lhs => rw [show k = 1 + (k - 1) by omega]
    rw [pow_add]
    norm_num
  unfold utilsSched
  rw [List.append_assoc]
  simp only [List.mem_append, List.mem_flatMap, List.mem_range, List.mem_singleton,
    mem_range1]
  constructor
  · rintro (⟨h1, h2⟩ | ⟨r, hr, h1, h2⟩ | rfl)
    · have hA : 1 ≤ (2 : Nat) ^ (k - 1) := Nat.one_le_two_pow
      omega
    · have hA : 1 ≤ (2 : Nat) ^ (k - 2 - r) := Nat.one_le_two_pow
      have hup : (2 : Nat) ^ (k - 2 - r) + 2 ^ (k - 2 - r) = 2 ^ (k - 1 - r) := by
        rw [show k - 1 - r = (k - 2 - r) + 1 by omega, pow_succ]
        ring
      have hle : (2 : Nat) ^ (k - 1 - r) ≤ 2 ^ k :=
        Nat.pow_le_pow_right (by norm_num) (by omega)
      omega
    · have := four_le_two_pow k hk
      omega
  · rintro ⟨h1, h2⟩
    by_cases hn1 : n = 1
    · exact Or.inr (Or.inr hn1)
    · have hn2 : 2 ≤ n := by omega
      obtain ⟨hd1, hd2⟩ := bin_log_spec n (by omega)
      have hdge : 1 ≤ bin_log n := bin_log_ge_one n hn2
      have hdlt : bin_log n < k := bin_log_lt n k (by omega) h2
      by_cases hdtop : bin_log n = k - 1
      · apply Or.inl
        rw [hdtop] at hd1 hd2
        rw [show k - 1 + 1 = k by omega] at hd2
        omega
      · apply Or.inr
        apply Or.inl
        refine ⟨k - 2 - bin_log n, by omega, ?_⟩
        rw [show k - 2 - (k - 2 - bin_log n) = bin_log n by omega]
        rw [pow_succ] at hd2
        omega

theorem hppSched_mem_iff (k : Nat) (hk : 2 ≤ k) (n : Nat) :
    n ∈ hppSched k ↔ (1 ≤ n ∧ n < 2 ^ k) := by
  have hsplit : (2 : Nat) ^ k = 4 * 2 ^ (k - 2) := by
    conv_lhs => rw [show k = 2 + (k - 2) by omega]
    rw [pow_add]
    norm_num
  unfold hppSched orch0Sched orch1Sched
  rw [List.append_assoc, List.append_assoc, List.append_assoc]
  simp only [List.mem_append, List.mem_flatMap, List.mem_range, List.mem_singleton,
    mem_range1]
  have hupfact : ∀ r : Nat, r < k - 2 → (4 : Nat) * 2 ^ (k - 3 - r) ≤ 2 ^ k := by
    intro r hr
    have : (4 : Nat) * 2 ^ (k - 3 - r) = 2 ^ (k - 1 - r) := by
      conv_rhs => rw [show k - 1 - r = 2 + (k - 3 - r) by omega]
      rw [pow_add]
      norm_num
    rw [this]
    exact Nat.pow_le_pow_right (by norm_num) (by omega)
  constructor
  · rintro (⟨h1, h2⟩ | ⟨r, hr, h1, h2⟩ | ⟨h1, h2⟩ | ⟨r, hr, h1, h2⟩ | rfl)
    · have hA : 1 ≤ (2 : Nat) ^ (k - 2) := Nat.one_le_two_pow
      omega
    · have hA : 1 ≤ (2 : Nat) ^ (k - 3 - r) := Nat.one_le_two_pow
      have := hupfact r hr
      omega
    · have hA : 1 ≤ (2 : Nat) ^ (k - 2) := Nat.one_le_two_pow
      omega
    · have hA : 1 ≤ (2 : Nat) ^ (k - 3 - r) := Nat.one_le_two_pow
      have := hupfact r hr
      omega
    · have := four_le_two_pow k hk
      omega
  · rintro ⟨h1, h2⟩
    by_cases hn1 : n = 1
    · subst hn1
      tauto
    · have hn2 : 2 ≤ n := by omega
      obtain ⟨hd1, hd2⟩ := bin_log_spec n (by omega)
      have hdge : 1 ≤ bin_log n := bin_log_ge_one n hn2
      have hdlt : bin_log n < k := bin_log_lt n k (by omega) h2
      have hdsplit : (2 : Nat) ^ bin_log n = 2 * 2 ^ (bin_log n - 1) := by
        conv_lhs => rw [show bin_log n = 1 + (bin_log n - 1) by omega]
        rw [pow_add]
        norm_num
      rw [pow_succ] at hd2
      by_cases hlow : n < 3 * 2 ^ (bin_log n - 1)
      · by_cases hdtop : bin_log n = k - 1
        · apply Or.inl
          rw [hdtop] at hd1 hlow hdsplit
          rw [show k - 1 - 1 = k - 2 by omega] at hlow hdsplit
          omega
        · apply Or.inr
          apply Or.inl
          refine ⟨k - 2 - bin_log n, by omega, ?_⟩
          rw [show k - 3 - (k - 2 - bin_log n) = bin_log n - 1 by omega]
          omega
      · by_cases hdtop : bin_log n = k - 1
        · apply Or.inr
          apply Or.inr
          apply Or.inl
          rw [hdtop] at hd2 hdsplit hlow
          rw [show k - 1 - 1 = k - 2 by omega] at hdsplit hlow
          omega
        · apply Or.inr
          apply Or.inr
          apply Or.inr
          apply Or.inl
          refine ⟨k - 2 - bin_log n, by omega, ?_⟩
          rw [show k - 3 - (k - 2 - bin_log n) = bin_log n - 1 by omega]
          omega

/-- The `utils.hpp` orchestrator populates the intermediates buffer with
exactly the specified tree. -/
theorem utilsRun_spec (k : Nat) (hk : 2 ≤ k) (leaves init : Buf) :
    utilsRun (2 ^ k) leaves init = treeBuf (2 ^ k) leaves init := by
  have heven : (2 : Nat) ^ k % 2 = 0 := two_pow_even k (by omega)
  have h := exec_sched (2 ^ k) leaves init heven (utilsSched k) []
    (utilsSched_goodSched k hk)
  rw [doneBuf_nil, List.append_nil] at h
  unfold utilsRun
  rw [utilsOps_eq k hk, h]
  apply doneBuf_eq_treeBuf
  intro n
  rw [List.mem_reverse]
  exact utilsSched_mem_iff k hk n

/-- The `merklize.hpp` orchestrators populate the intermediates buffer with
exactly the specified tree. -/
theorem hppRun_spec (k : Nat) (hk : 2 ≤ k) (leaves init : Buf) :
    merklizeHppRun (2 ^ k) leaves init = treeBuf (2 ^ k) leaves init := by
  have heven : (2 : Nat) ^ k % 2 = 0 := two_pow_even k (by omega)
  have h := exec_sched (2 ^ k) leaves init heven (hppSched k) []
    (hppSched_goodSched k hk)
  rw [doneBuf_nil, List.append_nil] at h
  unfold merklizeHppRun
  rw [hppOps_eq k hk, h]
  apply doneBuf_eq_treeBuf
  intro n
  rw [List.mem_reverse]
  exact hppSched_mem_iff k hk n

theorem fipsW_length (blk : List Nat) : ∀ n : Nat, (fipsW blk n).length = n := by
  intro n
  induction n with
  | zero => rfl
  | succ m ih =>
    show (fipsW blk m ++ [_]).length = m + 1
    rw [List.length_append, ih]
    rfl

theorem fipsW_succ (blk : List Nat) (n : Nat) :
    fipsW blk (n + 1) =
      fipsW blk n ++
        [if n < 16 then blk.getD n 0
         else w32 (sigma_1 ((fipsW blk n).getD (n - 2) 0) + (fipsW blk n).getD (n - 7) 0 +
                   sigma_0 ((fipsW blk n).getD (n - 15) 0) + (fipsW blk n).getD (n - 16) 0)] :=
  rfl

theorem schedule_ext_succ (acc : List Nat) (fuel : Nat) :
    schedule_ext acc (fuel + 1) =
      schedule_ext
        (acc ++
          [w32 (w32 (sigma_1 (acc.getD ((acc.length - 2) &&& 0x3f) 0) +
                     acc.getD ((acc.length - 7) &&& 0x3f) 0) +
                w32 (sigma_0 (acc.getD ((acc.length - 15) &&& 0x3f) 0) +
                     acc.getD ((acc.length - 16) &&& 0x3f) 0))])
        fuel :=
  rfl

theorem mask63 (x : Nat) (h : x < 64) : x &&& 0x3f = x := by
  have h63 : (0x3f : Nat) = 2 ^ 6 - 1 := by norm_num
  rw [h63]
  exact Nat.and_pow_two_sub_one_of_lt_two_pow (by norm_num; omega)

theorem mask15 (x : Nat) (h : x < 16) : x &&& 0xf = x := by
  have h15 : (0xf : Nat) = 2 ^ 4 - 1 := by norm_num
  rw [h15]
  exact Nat.and_pow_two_sub_one_of_lt_two_pow (by norm_num; omega)

theorem w32_add_w32 (a b : Nat) : w32 (w32 a + w32 b) = w32 (a + b) := by
  unfold w32
  omega

theorem schedule_ext_fips (blk : List Nat) :
    ∀ fuel m : Nat, 16 ≤ m → m + fuel = 64 →
      schedule_ext (fipsW blk m) fuel = fipsW blk (m + fuel) := by
  intro fuel
  induction fuel with
  | zero => intro m _ _; rfl
  | succ f ih =>
    intro m hm hsum
    rw [schedule_ext_succ, fipsW_length]
    rw [mask63 (m - 2) (by omega), mask63 (m - 7) (by omega),
      mask63 (m - 15) (by omega), mask63 (m - 16) (by omega), w32_add_w32]
    have helt :
        fipsW blk m ++
            [w32 (sigma_1 ((fipsW blk m).getD (m - 2) 0) + (fipsW blk m).getD (m - 7) 0 +
                  (sigma_0 ((fipsW blk m).getD (m - 15) 0) + (fipsW blk m).getD (m - 16) 0))] =
          fipsW blk (m + 1) := by
      rw [fipsW_succ, if_neg (by omega)]
      congr 3
      ring
    rw [helt, ih (m + 1) (by omega) (by omega), show m + 1 + f = m + (f + 1) by omega]

theorem fipsW_base (blk : List Nat) :
    ∀ n : Nat, n ≤ 16 → fipsW blk n = (List.range n).map (fun i => blk.getD i 0) := by
  intro n
  induction n with
  | zero => intro _; rfl
  | succ m ih =>
    intro hm
    rw [fipsW_succ, if_pos (by omega), ih (by omega), List.range_succ, List.map_append]
    rfl

theorem prepare_message_schedule_fips (blk : List Nat) :
    prepare_message_schedule blk = fipsW blk 64 := by
  unfold prepare_message_schedule
  have hbase : (List.range 16).map (fun i => blk.getD (i &&& 0xf) 0) = fipsW blk 16 := by
    rw [fipsW_base blk 16 le_rfl]
    apply List.map_congr_left
    intro i hi
    rw [List.mem_range] at hi
    rw [mask15 i hi]
  rw [hbase, schedule_ext_fips blk 48 16 le_rfl (by norm_num)]

theorem K_length : K.length = 64 := by decide

theorem zip_take_step (w : List Nat) (hw : w.length = 64) (n : Nat) (hn : n < 64) :
    (K.zip w).take (n + 1) = (K.zip w).take n ++ [(K.getD n 0, w.getD n 0)] := by
  have hb1 : n < K.length := by rw [K_length]; omega
  have hb2 : n < w.length := by omega
  rw [List.take_succ]
  congr 1
  have hsome : (K.zip w)[n]? = some (K[n], w[n]) := by
    apply List.getElem?_zip_eq_some.mpr
    exact ⟨List.getElem?_eq_getElem hb1, List.getElem?_eq_getElem hb2⟩
  rw [hsome, List.getD_eq_getElem K 0 hb1, List.getD_eq_getElem w 0 hb2]
  rfl

theorem sha_round_eq_fipsStep (st : List Nat) (kt wt : Nat) :
    sha_round st (kt, wt) = fipsStep st kt wt := by
  unfold sha_round fipsStep
  rfl

theorem foldl_rounds_fips (w : List Nat) (hw : w.length = 64) (st : List Nat) :
    ∀ n : Nat, n ≤ 64 →
      ((K.zip w).take n).foldl sha_round st = fipsRounds st w n := by
  intro n
  induction n with
  | zero => intro _; rfl
  | succ m ih =>
    intro hm
    rw [zip_take_step w hw m (by omega), List.foldl_append, ih (by omega)]
    show sha_round (fipsRounds st w m) (K.getD m 0, w.getD m 0) = fipsRounds st w (m + 1)
    rw [sha_round_eq_fipsStep]
    rfl

theorem compress_eq_fipsCompress (st blk : List Nat) :
    compress st blk = fipsCompress st blk := by
  show List.zipWith (fun x y => w32 (x + y)) st
      ((K.zip (prepare_message_schedule blk)).foldl sha_round st) =
    List.zipWith (fun x y => w32 (x + y)) st (fipsRounds st (fipsW blk 64) 64)
  rw [prepare_message_schedule_fips]
  have hw : (fipsW blk 64).length = 64 := fipsW_length blk 64
  have htake : (K.zip (fipsW blk 64)).take 64 = K.zip (fipsW blk 64) := by
    apply List.take_of_length_le
    rw [List.length_zip, K_length, hw]
    simp
  rw [← htake, foldl_rounds_fips (fipsW blk 64) hw st 64 le_rfl]

theorem fipsW_congr (b1 b2 : List Nat) (h : ∀ i, i < 16 → b1.getD i 0 = b2.getD i 0) :
    ∀ n : Nat, fipsW b1 n = fipsW b2 n := by
  intro n
  induction n with
  | zero => rfl
  | succ m ih =>
    rw [fipsW_succ, fipsW_succ, ih]
    by_cases hm : m < 16
    · rw [if_pos hm, if_pos hm, h m hm]
    · rw [if_neg hm, if_neg hm]

theorem compress_congr_block (st b1 b2 : List Nat)
    (h : ∀ i, i < 16 → b1.getD i 0 = b2.getD i 0) :
    compress st b1 = compress st b2 := by
  rw [compress_eq_fipsCompress, compress_eq_fipsCompress]
  unfold fipsCompress
  rw [fipsW_congr b1 b2 h 64]

theorem getD_map_range (g : Nat → Nat) (n i : Nat) (hi : i < n) :
    ((List.range n).map g).getD i 0 = g i := by
  rw [List.getD_eq_getElem _ _ (by simpa using hi)]
  simp

/-- Claim C2 underlying equivalence: the `sha256.hpp` 2-to-1 hash coincides
with the FIPS 180-4 formulation on every padded input. -/
theorem hash_eq_fips (padded : List Nat) : hash padded = sha256_2to1_fips padded := by
  unfold hash sha256_2to1_fips
  rw [compress_eq_fipsCompress, compress_eq_fipsCompress]
  have h1 : fipsCompress IV ((List.range 16).map (fun i => padded.getD i 0)) =
      fipsCompress IV (padded.take 16) := by
    unfold fipsCompress
    rw [fipsW_congr ((List.range 16).map (fun i => padded.getD i 0)) (padded.take 16)
      (fun i hi => by
        rw [getD_map_range _ 16 i hi, List.getD_eq_getElem?_getD,
          List.getD_eq_getElem?_getD, List.getElem?_take_of_lt hi]) 64]
  have h2 : ∀ st : List Nat,
      fipsCompress st ((List.range 16).map (fun i => padded.getD (16 + i) 0)) =
        fipsCompress st (padded.drop 16) := by
    intro st
    unfold fipsCompress
    rw [fipsW_congr ((List.range 16).map (fun i => padded.getD (16 + i) 0)) (padded.drop 16)
      (fun i hi => by
        rw [getD_map_range _ 16 i hi, List.getD_eq_getElem?_getD,
          List.getD_eq_getElem?_getD, List.getElem?_drop]) 64]
  rw [h1, h2]

theorem read16_congr (L1 L2 : Buf) (off : Nat)
    (h : ∀ i, i < 16 → L1 (off + i) = L2 (off + i)) :
    read16 L1 off = read16 L2 off := by
  unfold read16
  apply List.map_congr_left
  intro i hi
  rw [List.mem_range] at hi
  exact h i hi

/-- A tree node's value depends only on the leaf words inside its subtree:
node `n` reads exactly the words of leaves `m - N` for descendants
`m ∈ [N, 2N)` of `n` (heap indexing, `m >>> d = n`). -/
theorem specNode_leaf_congr (N : Nat) (L1 L2 : Buf) (heven : N % 2 = 0) :
    ∀ (fuel n : Nat), 1 ≤ n → n < N →
      (∀ m : Nat, (∃ d : Nat, m >>> d = n) → N ≤ m → m < 2 * N →
        ∀ j, j < 8 → L1 (8 * m - 8 * N + j) = L2 (8 * m - 8 * N + j)) →
      specNode N L1 fuel n = specNode N L2 fuel n := by
  intro fuel
  induction fuel with
  | zero => intro n _ _ _; rfl
  | succ f ih =>
    intro n hn1 hnN h
    show specNode N L1 (f + 1) n = specNode N L2 (f + 1) n
    unfold specNode
    by_cases hle : N ≤ 2 * n
    · rw [if_pos hle, if_pos hle]
      congr 2
      apply read16_congr
      intro i hi
      by_cases hi8 : i < 8
      · have heq : 16 * n - 8 * N + i = 8 * (2 * n) - 8 * N + i := by omega
        rw [heq]
        apply h (2 * n) ⟨1, by rw [Nat.shiftRight_one]; omega⟩ hle (by omega) i hi8
      · have heq : 16 * n - 8 * N + i = 8 * (2 * n + 1) - 8 * N + (i - 8) := by omega
        rw [heq]
        apply h (2 * n + 1) ⟨1, by rw [Nat.shiftRight_one]; omega⟩ (by omega) (by omega)
          (i - 8) (by omega)
    · rw [if_neg hle, if_neg hle]
      have hch : ∀ c : Nat, (∃ e : Nat, c >>> e = n) → 1 ≤ c → c < N →
          specNode N L1 f c = specNode N L2 f c := by
        intro c hanc hc1 hcN
        apply ih c hc1 hcN
        intro m ⟨d, hd⟩ hm1 hm2 j hj
        obtain ⟨e, he⟩ := hanc
        exact h m ⟨d + e, by rw [Nat.shiftRight_add, hd, he]⟩ hm1 hm2 j hj
      rw [hch (2 * n) ⟨1, by rw [Nat.shiftRight_one]; omega⟩ (by omega) (by omega),
        hch (2 * n + 1) ⟨1, by rw [Nat.shiftRight_one]; omega⟩ (by omega) (by omega)]

theorem flatMap_range'_length (start : Nat → Nat) :
    ∀ j c : Nat, j ≤ c + 1 →
      ((List.range j).flatMap (fun r => List.range' (start r) (2 ^ (c - r)))).length =
        2 ^ (c + 1) - 2 ^ (c + 1 - j) := by
  intro j
  induction j with
  | zero => intro c _; simp
  | succ j ih =>
    intro c hj
    rw [List.range_succ, List.flatMap_append, List.length_append, ih c (by omega)]
    have h2 : (2 : Nat) ^ (c + 1 - j) = 2 * 2 ^ (c - j) := by
      conv_lhs => rw [show c + 1 - j = 1 + (c - j) by omega]
      rw [pow_add]
      norm_num
    have h3 : (2 : Nat) ^ (c + 1 - j) ≤ 2 ^ (c + 1) :=
      Nat.pow_le_pow_right (by norm_num) (by omega)
    have h4 : c + 1 - (j + 1) = c - j := by omega
    rw [h4]
    simp only [List.flatMap_cons, List.flatMap_nil, List.append_nil, List.length_append,
      List.length_range']
    omega

theorem utilsSched_length (k : Nat) (hk : 2 ≤ k) :
    (utilsSched k).length = 2 ^ k - 1 := by
  unfold utilsSched
  rw [List.length_append, List.length_append, List.length_range',
    flatMap_range'_length _ (k - 2) (k - 2) (by omega)]
  have h1 : (2 : Nat) ^ k = 2 * 2 ^ (k - 1) := by
    conv_lhs => rw [show k = 1 + (k - 1) by omega]
    rw [pow_add]
    norm_num
  have h2 : (2 : Nat) ^ (k - 1) = 2 ^ (k - 2 + 1) := by
    congr 1
    omega
  have h3 : (2 : Nat) ^ (k - 2 + 1 - (k - 2)) = 2 := by
    rw [show k - 2 + 1 - (k - 2) = 1 by omega]
    norm_num
  have h4 : (1 : Nat) ≤ 2 ^ (k - 1) := Nat.one_le_two_pow
  simp only [List.length_singleton]
  omega

theorem orchSched_length (k : Nat) (hk : 2 ≤ k) (t : Nat) :
    (List.range' (t * 2 ^ (k - 2)) (2 ^ (k - 2)) ++
      (List.range (k - 2)).flatMap
        (fun r => List.range' (t * 2 ^ (k - 3 - r)) (2 ^ (k - 3 - r)))).length =
      2 ^ (k - 1) - 1 := by
  rw [List.length_append, List.length_range',
    flatMap_range'_length _ (k - 2) (k - 3) (by omega)]
  by_cases hk2 : k = 2
  · subst hk2
    decide
  · have h1 : (2 : Nat) ^ (k - 1) = 2 * 2 ^ (k - 2) := by
      conv_lhs => rw [show k - 1 = 1 + (k - 2) by omega]
      rw [pow_add]
      norm_num
    have h2 : (2 : Nat) ^ (k - 3 + 1) = 2 ^ (k - 2) := by
      congr 1
      omega
    have h3 : (2 : Nat) ^ (k - 3 + 1 - (k - 2)) = 1 := by
      rw [show k - 3 + 1 - (k - 2) = 0 by omega]
      norm_num
    have h4 : (1 : Nat) ≤ 2 ^ (k - 2) := Nat.one_le_two_pow
    omega

theorem hppSched_length (k : Nat) (hk : 2 ≤ k) :
    (hppSched k).length = 2 ^ k - 1 := by
  unfold hppSched orch0Sched orch1Sched
  rw [List.length_append, List.length_append, orchSched_length k hk 2,
    orchSched_length k hk 3]
  have h1 : (2 : Nat) ^ k = 2 * 2 ^ (k - 1) := by
    conv_lhs => rw [show k = 1 + (k - 1) by omega]
    rw [pow_add]
    norm_num
  have h4 : (1 : Nat) ≤ 2 ^ (k - 1) := Nat.one_le_two_pow
  simp only [List.length_singleton]
  omega

theorem sched_nodup (k : Nat) (hk : 2 ≤ k) (sched : List Nat)
    (hmem : ∀ n, n ∈ sched ↔ (1 ≤ n ∧ n < 2 ^ k))
    (hlen : sched.length = 2 ^ k - 1) : sched.Nodup := by
  have hfin : sched.toFinset = Finset.Ico 1 (2 ^ k) := by
    apply Finset.ext
    intro n
    rw [List.mem_toFinset, Finset.mem_Ico, hmem]
  have hcard : sched.dedup.length = 2 ^ k - 1 := by
    rw [← List.card_toFinset, hfin, Nat.card_Ico]
  have hsub : sched.dedup.Sublist sched := List.dedup_sublist sched
  have heq : sched.dedup = sched := hsub.eq_of_length (by omega)
  rw [← heq]
  exact List.nodup_dedup sched

theorem nodeOp_o_off (N n : Nat) : (nodeOp N n).o_off = 8 * n := by
  unfold nodeOp
  split <;> rfl

theorem ops_o_off_nodup (k : Nat) (hk : 2 ≤ k) (sched : List Nat)
    (hmem : ∀ n, n ∈ sched ↔ (1 ≤ n ∧ n < 2 ^ k))
    (hlen : sched.length = 2 ^ k - 1) :
    ((sched.map (nodeOp (2 ^ k))).map Op.o_off).Nodup := by
  rw [List.map_map]
  have hfun : (Op.o_off ∘ nodeOp (2 ^ k)) = (fun n => 8 * n) := by
    funext n
    exact nodeOp_o_off (2 ^ k) n
  rw [hfun]
  exact (sched_nodup k hk sched hmem hlen).map (fun a b h => by omega)

theorem drainRem_append (a b w0 w1 : List Ev) :
    drainRem (a ++ b) w0 w1 =
      (drainRem a w0 w1).bind (fun s => drainRem b s.1 s.2) := by
  induction a generalizing w0 w1 with
  | nil => rfl
  | cons e o ih =>
    simp only [List.cons_append, drainRem]
    by_cases hp : pipeOwner (evPipe e) = true
    · rw [if_pos hp, if_pos hp]
      cases w1 with
      | nil => rfl
      | cons e1 w1t =>
        show (if evMatch e e1 = true then drainRem (o ++ b) w0 w1t else none) =
          (if evMatch e e1 = true then drainRem o w0 w1t else none).bind
            (fun s => drainRem b s.1 s.2)
        by_cases hm : evMatch e e1 = true
        · rw [if_pos hm, if_pos hm]
          exact ih w0 w1t
        · rw [if_neg hm, if_neg hm]
          rfl
    · rw [if_neg hp, if_neg hp]
      cases w0 with
      | nil => rfl
      | cons e0 w0t =>
        show (if evMatch e e0 = true then drainRem (o ++ b) w0t w1 else none) =
          (if evMatch e e0 = true then drainRem o w0t w1 else none).bind
            (fun s => drainRem b s.1 s.2)
        by_cases hm : evMatch e e0 = true
        · rw [if_pos hm, if_pos hm]
          exact ih w0t w1
        · rw [if_neg hm, if_neg hm]
          rfl

theorem drainRem_iter (rest s0 s1 : List Ev) :
    drainRem (Ev.wr PipeId.ip0 :: Ev.wr PipeId.ip1 :: Ev.rd PipeId.op0 ::
        Ev.rd PipeId.op1 :: rest)
      (Ev.rd PipeId.ip0 :: Ev.wr PipeId.op0 :: s0)
      (Ev.rd PipeId.ip1 :: Ev.wr PipeId.op1 :: s1) =
    drainRem rest s0 s1 := rfl

/-- Draining one full unguarded pair loop consumes `(itr - i + 1) / 2`
request/response rounds (one per executed iteration) from each worker. -/
theorem drainRem_pairLoopUTraceAux (itr : Nat) :
    ∀ (fuel i m0 m1 : Nat), itr ≤ i + fuel →
      (itr - i + 1) / 2 ≤ m0 → (itr - i + 1) / 2 ≤ m1 →
      drainRem (pairLoopUTraceAux itr i fuel)
          (serverTrace PipeId.ip0 PipeId.op0 m0)
          (serverTrace PipeId.ip1 PipeId.op1 m1) =
        some (serverTrace PipeId.ip0 PipeId.op0 (m0 - (itr - i + 1) / 2),
          serverTrace PipeId.ip1 PipeId.op1 (m1 - (itr - i + 1) / 2)) := by
  intro fuel
  induction fuel with
  | zero =>
    intro i m0 m1 hle hm0 hm1
    have hz : (itr - i + 1) / 2 = 0 := by omega
    rw [hz]
    simp [pairLoopUTraceAux, drainRem]
  | succ fuel ih =>
    intro i m0 m1 hle hm0 hm1
    by_cases hi : i < itr
    · have ht : (itr - i + 1) / 2 = (itr - (i + 2) + 1) / 2 + 1 := by omega
      obtain ⟨m0p, rfl⟩ : ∃ m, m0 = m + 1 := ⟨m0 - 1, by omega⟩
      obtain ⟨m1p, rfl⟩ : ∃ m, m1 = m + 1 := ⟨m1 - 1, by omega⟩
      simp only [pairLoopUTraceAux, serverTrace]
      rw [if_pos hi, drainRem_iter]
      rw [ih (i + 2) m0p m1p (by omega) (by omega) (by omega)]
      have e0 : m0p - (itr - (i + 2) + 1) / 2 = m0p + 1 - (itr - i + 1) / 2 := by omega
      have e1 : m1p - (itr - (i + 2) + 1) / 2 = m1p + 1 - (itr - i + 1) / 2 := by omega
      rw [e0, e1]
    · have hz : (itr - i + 1) / 2 = 0 := by omega
      rw [hz]
      simp only [pairLoopUTraceAux]
      rw [if_neg hi]
      simp [drainRem]

/-- Draining the `utils.hpp` intermediate rounds `j, j+1, ..., k-3` (with
`j + d + 2 = k`, iteration counts `2^(d+1), 2^d, ..., 2`) consumes exactly
`2^d - 1` rounds from each worker. -/
theorem drainRem_utilsRounds (k : Nat) :
    ∀ (d j m0 m1 : Nat), j + d + 2 = k →
      2 ^ d - 1 ≤ m0 → 2 ^ d - 1 ≤ m1 →
      drainRem ((List.range' j d).flatMap
            (fun r => pairLoopUTrace (2 ^ k >>> (r + 2))))
          (serverTrace PipeId.ip0 PipeId.op0 m0)
          (serverTrace PipeId.ip1 PipeId.op1 m1) =
        some (serverTrace PipeId.ip0 PipeId.op0 (m0 - (2 ^ d - 1)),
          serverTrace PipeId.ip1 PipeId.op1 (m1 - (2 ^ d - 1))) := by
  intro d
  induction d with
  | zero =>
    intro j m0 m1 hjk hm0 hm1
    simp [drainRem]
  | succ d ih =>
    intro j m0 m1 hjk hm0 hm1
    rw [List.range'_succ, List.flatMap_cons, drainRem_append]
    have hsh : 2 ^ k >>> (j + 2) = 2 ^ (d + 1) := by
      rw [two_pow_shiftRight k (j + 2) (by omega)]
      congr 1
      omega
    rw [hsh]
    have hp : 2 ^ (d + 1) = 2 * 2 ^ d := by
      rw [pow_succ]
      ring
    have hone : 1 ≤ 2 ^ d := Nat.one_le_two_pow
    rw [pairLoopUTrace]
    rw [drainRem_pairLoopUTraceAux (2 ^ (d + 1)) (2 ^ (d + 1)) 0 m0 m1 (by omega)
      (by omega) (by omega)]
    simp only [Option.some_bind]
    have ht : (2 ^ (d + 1) - 0 + 1) / 2 = 2 ^ d := by omega
    rw [ht]
    rw [ih (j + 1) (m0 - 2 ^ d) (m1 - 2 ^ d) (by omega) (by omega) (by omega)]
    have e0 : m0 - 2 ^ d - (2 ^ d - 1) = m0 - (2 ^ (d + 1) - 1) := by omega
    have e1 : m1 - 2 ^ d - (2 ^ d - 1) = m1 - (2 ^ (d + 1) - 1) := by omega
    rw [e0, e1]

/-- For every `leaf_cnt = 2^k` with `k ≥ 2` the `utils.hpp` pipe traces
drain completely: the orchestrator finishes its whole trace and both bounded
workers are consumed exactly (every dispatched hash request is served and
every response consumed), so the completed-run model `utilsOps`/`utilsRun`
is faithful to the source for these sizes. -/
theorem utils_traces_drain (k : Nat) (hk : 2 ≤ k) :
    drainRem (utilsOrchTrace (2 ^ k)) (utilsWorker0Trace (2 ^ k))
        (utilsWorker1Trace (2 ^ k)) = some ([], []) := by
  have hs1 : 2 ^ k >>> 1 = 2 ^ (k - 1) := two_pow_shiftRight k 1 (by omega)
  have hp1 : 2 ^ (k - 1) = 2 * 2 ^ (k - 2) := by
    conv_lhs => rw [show k - 1 = 1 + (k - 2) by omega]
    rw [pow_add]
    norm_num
  have hone : 1 ≤ 2 ^ (k - 2) := Nat.one_le_two_pow
  rw [utilsOrchTrace, utilsWorker0Trace, utilsWorker1Trace, hs1]
  rw [bin_log_two_pow]
  rw [show k - 1 - 1 = k - 2 by omega]
  rw [List.range_eq_range']
  rw [drainRem_append, drainRem_append]
  rw [pairLoopUTrace]
  rw [drainRem_pairLoopUTraceAux (2 ^ (k - 1)) (2 ^ (k - 1)) 0 (2 ^ (k - 1))
    (2 ^ (k - 1) - 1) (by omega) (by omega) (by omega)]
  simp only [Option.some_bind]
  have ht : (2 ^ (k - 1) - 0 + 1) / 2 = 2 ^ (k - 2) := by omega
  rw [ht]
  rw [drainRem_utilsRounds k (k - 2) 0 (2 ^ (k - 1) - 2 ^ (k - 2))
    (2 ^ (k - 1) - 1 - 2 ^ (k - 2)) (by omega) (by omega) (by omega)]
  simp only [Option.some_bind]
  rw [show 2 ^ (k - 1) - 2 ^ (k - 2) - (2 ^ (k - 2) - 1) = 1 by omega]
  rw [show 2 ^ (k - 1) - 1 - 2 ^ (k - 2) - (2 ^ (k - 2) - 1) = 0 by omega]
  rfl

/-- All-zero buffer, used for concrete test inputs. -/
def zeroBuf : Buf := fun _ => 0

/-- Buffer that differs from `zeroBuf` exactly in word 0 (a single mutated
leaf word). -/
def oneAt0Buf : Buf := fun x => if x = 0 then 1 else 0

/-- Leaves buffer whose second 32-word half repeats the first (under the
spec's 16-word leaves: leaf 2 = leaf 0 and leaf 3 = leaf 1). -/
def symLeaves : Buf := fun x => x % 32

/-- Does a `merklize` call pass its precondition assertions? -/
def isOkB (e : Except MerklizeError Buf) : Bool :=
  match e with
  | Except.ok _ => true
  | Except.error _ => false

theorem treeBuf_word (N : Nat) (leaves init : Buf) (n j : Nat)
    (h1 : 1 ≤ n) (h2 : n < N) (hj : j < 8) :
    treeBuf N leaves init (8 * n + j) = (specNodeT N leaves n).getD j 0 := by
  unfold treeBuf
  have hd : (8 * n + j) / 8 = n := by omega
  have hm : (8 * n + j) % 8 = j := by omega
  rw [hd, hm, if_pos ⟨h1, h2⟩]

theorem treeBuf_frame_low (N : Nat) (leaves init : Buf) (x : Nat) (hx : x < 8) :
    treeBuf N leaves init x = init x := by
  unfold treeBuf
  rw [if_neg (by omega)]

theorem treeBuf_frame_high (N : Nat) (leaves init : Buf) (x : Nat) (hx : 8 * N ≤ x) :
    treeBuf N leaves init x = init x := by
  unfold treeBuf
  rw [if_neg (by omega)]

theorem treeBuf_internal_word (N : Nat) (leaves init : Buf) (n j : Nat)
    (heven : N % 2 = 0) (h1 : 1 ≤ n) (h2 : 2 * n < N) (hj : j < 8) :
    treeBuf N leaves init (8 * n + j) =
      (hash (pad_input_message (read16 (treeBuf N leaves init) (16 * n)))).getD j 0 := by
  have hN : 1 ≤ N := by omega
  rw [treeBuf_word N leaves init n j h1 (by omega) hj,
    specNodeT_internal N leaves n heven h1 h2]
  congr 2
  apply (pad_eq_of_getD _ _ _).symm
  intro i hi
  rw [read16_getD _ _ _ hi]
  by_cases hi8 : i < 8
  · rw [show 16 * n + i = 8 * (2 * n) + i by omega,
      treeBuf_word N leaves init (2 * n) i (by omega) (by omega) hi8,
      List.getD_append _ _ _ _ (by rw [specNodeT_length N leaves _ hN]; omega)]
  · rw [show 16 * n + i = 8 * (2 * n + 1) + (i - 8) by omega,
      treeBuf_word N leaves init (2 * n + 1) (i - 8) (by omega) (by omega) (by omega),
      List.getD_append_right _ _ _ _ (by rw [specNodeT_length N leaves _ hN]; omega),
      specNodeT_length N leaves _ hN]

theorem treeBuf_leaf_word (N : Nat) (leaves init : Buf) (n j : Nat)
    (h1 : N ≤ 2 * n) (h2 : n < N) (hj : j < 8) :
    treeBuf N leaves init (8 * n + j) =
      (hash (pad_input_message (read16 leaves (16 * n - 8 * N)))).getD j 0 := by
  have hn1 : 1 ≤ n := by omega
  rw [treeBuf_word N leaves init n j hn1 h2 hj, specNodeT_leaf N leaves n (by omega) h1]

theorem fipsW_getD_stable (blk : List Nat) (t : Nat) :
    ∀ n : Nat, t < n → (fipsW blk n).getD t 0 = (fipsW blk (t + 1)).getD t 0 := by
  intro n
  induction n with
  | zero => intro h; omega
  | succ m ih =>
    intro h
    by_cases hm : t < m
    · rw [fipsW_succ, List.getD_append _ _ _ _ (by rw [fipsW_length]; omega), ih hm]
    · have : t = m := by omega
      subst this
      rfl

theorem fipsW_getD_eq (blk : List Nat) (t : Nat) (h : t < 64) :
    (fipsW blk 64).getD t 0 =
      if t < 16 then blk.getD t 0
      else w32 (sigma_1 ((fipsW blk 64).getD (t - 2) 0) + (fipsW blk 64).getD (t - 7) 0 +
                sigma_0 ((fipsW blk 64).getD (t - 15) 0) + (fipsW blk 64).getD (t - 16) 0) := by
  rw [fipsW_getD_stable blk t 64 h, fipsW_succ,
    List.getD_append_right _ _ _ _ (by rw [fipsW_length])]
  rw [fipsW_length, Nat.sub_self]
  by_cases h16 : t < 16
  · rw [if_pos h16, if_pos h16]
    rfl
  · rw [if_neg h16, if_neg h16]
    show w32 (sigma_1 ((fipsW blk t).getD (t - 2) 0) + (fipsW blk t).getD (t - 7) 0 +
              sigma_0 ((fipsW blk t).getD (t - 15) 0) + (fipsW blk t).getD (t - 16) 0) = _
    rw [fipsW_getD_stable blk (t - 2) t (by omega), ← fipsW_getD_stable blk (t - 2) 64 (by omega),
      fipsW_getD_stable blk (t - 7) t (by omega), ← fipsW_getD_stable blk (t - 7) 64 (by omega),
      fipsW_getD_stable blk (t - 15) t (by omega), ← fipsW_getD_stable blk (t - 15) 64 (by omega),
      fipsW_getD_stable blk (t - 16) t (by omega), ← fipsW_getD_stable blk (t - 16) 64 (by omega)]

theorem map_getD_eq_self (inp : List Nat) (h : inp.length = 16) :
    (List.range 16).map (fun i => inp.getD i 0) = inp := by
  apply List.ext_getElem
  · simp [h]
  · intro i h1 h2
    simp only [List.getElem_map, List.getElem_range]
    rw [List.getD_eq_getElem _ _ (by omega)]

/-!
Claim theorems.
-/

/-- Claim C1, counterexample to the claim as stated.  Under the claim's
512-bit 16-word leaves and `leaf_count = 4`, the leaves buffer `symLeaves`
makes pair (leaf 2, leaf 3) word-for-word identical to pair (leaf 0, leaf 1),
so the claim forces the two leaf-adjacent nodes to be equal digests; the code
instead hashes one 16-word block per node (words 0-15 and words 16-31
respectively) and produces two different nodes at offsets 16 and 24. -/
theorem C1_counterexample :
    readN (merklizeHppRun 4 symLeaves zeroBuf) 16 8 ≠
      readN (merklizeHppRun 4 symLeaves zeroBuf) 24 8 := by
  decide

set_option maxRecDepth 100000 in
/-- Claim C1 (amended): for every power-of-two `leaf_count = 2^k ≥ 4`,
`merklize` (both the `merklize.hpp` and the `utils.hpp` variant) writes every
tree node `n` (heap index, root `n = 1`) at words `[8n, 8n+8)` of the
intermediates buffer, where each leaf-adjacent node (`N ≤ 2n`) is the 2-to-1
SHA-256 digest, padded per the Padding Stage, of the 512-bit concatenation of
its pair of adjacent 256-bit 8-word leaves (the 16 leaves-buffer words at
`16n - 8N`), and each higher node (including the root) is the 2-to-1 digest
of the two adjacent 256-bit nodes of the level below (the 16
intermediates-buffer words at `16n`). -/
theorem C1_tree_contents (k : Nat) (hk : 2 ≤ k) (leaves init : Buf) :
    (∀ n j : Nat, 2 ^ k ≤ 2 * n → n < 2 ^ k → j < 8 →
      merklizeHppRun (2 ^ k) leaves init (8 * n + j) =
        (hash (pad_input_message (read16 leaves (16 * n - 8 * 2 ^ k)))).getD j 0 ∧
      utilsRun (2 ^ k) leaves init (8 * n + j) =
        (hash (pad_input_message (read16 leaves (16 * n - 8 * 2 ^ k)))).getD j 0) ∧
    (∀ n j : Nat, 1 ≤ n → 2 * n < 2 ^ k → j < 8 →
      merklizeHppRun (2 ^ k) leaves init (8 * n + j) =
        (hash (pad_input_message
          (read16 (merklizeHppRun (2 ^ k) leaves init) (16 * n)))).getD j 0 ∧
      utilsRun (2 ^ k) leaves init (8 * n + j) =
        (hash (pad_input_message
          (read16 (utilsRun (2 ^ k) leaves init) (16 * n)))).getD j 0) := by
  have heven : (2 : Nat) ^ k % 2 = 0 := two_pow_even k (by omega)
  constructor
  · intro n j h1 h2 hj
    rw [hppRun_spec k hk leaves init, utilsRun_spec k hk leaves init,
      treeBuf_leaf_word (2 ^ k) leaves init n j h1 h2 hj]
    exact ⟨rfl, rfl⟩
  · intro n j h1 h2 hj
    rw [hppRun_spec k hk leaves init, utilsRun_spec k hk leaves init,
      treeBuf_internal_word (2 ^ k) leaves init n j heven h1 h2 hj]
    exact ⟨rfl, rfl⟩

/-- Claim C1, witness: the amended theorem applied at `leaf_count = 4` with
all-zero buffers, node 2, word 0. -/
theorem C1_tree_contents_witness :
    merklizeHppRun (2 ^ 2) zeroBuf zeroBuf (8 * 2 + 0) =
      (hash (pad_input_message (read16 zeroBuf (16 * 2 - 8 * 2 ^ 2)))).getD 0 0 :=
  ((C1_tree_contents 2 (by norm_num) zeroBuf zeroBuf).1 2 0 (by norm_num) (by norm_num)
    (by norm_num)).1

/-- Claim C2: the compression core computes exactly the FIPS 180-4 §6.2.2
update: the message schedule satisfies `W t = block t` for `t < 16` and
`W t = σ1 (W (t-2)) + W (t-7) + σ0 (W (t-15)) + W (t-16) (mod 2^32)` for
`16 ≤ t < 64`, and the 2-to-1 `hash` equals the FIPS formulation (64 rounds
with `ch`, `maj`, `Σ0`, `Σ1` and the constants `K`, additions into the running
state mod `2^32`, the two 512-bit halves consumed in strict sequence starting
from `IV`, the final 8-word state being the digest). -/
theorem C2_compression_fips :
    (∀ padded : List Nat, hash padded = sha256_2to1_fips padded) ∧
    (∀ (blk : List Nat) (t : Nat), t < 16 → (fipsW blk 64).getD t 0 = blk.getD t 0) ∧
    (∀ (blk : List Nat) (t : Nat), 16 ≤ t → t < 64 →
      (fipsW blk 64).getD t 0 =
        w32 (sigma_1 ((fipsW blk 64).getD (t - 2) 0) + (fipsW blk 64).getD (t - 7) 0 +
             sigma_0 ((fipsW blk 64).getD (t - 15) 0) + (fipsW blk 64).getD (t - 16) 0)) := by
  refine ⟨hash_eq_fips, ?_, ?_⟩
  · intro blk t ht
    rw [fipsW_getD_eq blk t (by omega), if_pos ht]
  · intro blk t ht1 ht2
    rw [fipsW_getD_eq blk t ht2, if_neg (by omega)]

/-- Claim C2, witness: schedule facts of the FIPS formulation evaluated on the
block `0, 1, ..., 15`. -/
theorem C2_compression_fips_witness :
    (0 : Nat) < 16 ∧ (16 : Nat) ≤ 16 ∧ (16 : Nat) < 64 ∧
    (fipsW (List.range 16) 64).getD 0 0 = (List.range 16).getD 0 0 ∧
    (fipsW (List.range 16) 64).getD 16 0 =
      w32 (sigma_1 ((fipsW (List.range 16) 64).getD (16 - 2) 0) +
           (fipsW (List.range 16) 64).getD (16 - 7) 0 +
           sigma_0 ((fipsW (List.range 16) 64).getD (16 - 15) 0) +
           (fipsW (List.range 16) 64).getD (16 - 16) 0) :=
  ⟨by decide, by decide, by decide,
    C2_compression_fips.2.1 (List.range 16) 0 (by decide),
    C2_compression_fips.2.2 (List.range 16) 16 (by decide) (by decide)⟩

/-- Claim C3: for every 16-word input, `pad_input_message` produces a 32-word
output: words 0-15 are the input verbatim, word 16 is `0x80000000`
(= 2147483648, only the top bit of the top byte set), words 17-30 are zero,
and word 31 is the original 512-bit message length. -/
theorem C3_padding_layout (inp : List Nat) (h : inp.length = 16) :
    (pad_input_message inp).length = 32 ∧
    pad_input_message inp = inp ++ 2147483648 :: (List.replicate 14 0 ++ [512]) := by
  have hmap := map_getD_eq_self inp h
  constructor
  · unfold pad_input_message
    rw [hmap]
    simp [h]
  · have h1 : (0b10000000 : Nat) <<< 24 = 2147483648 := by decide
    have h2 : (0b00000010 : Nat) <<< 8 = 512 := by decide
    unfold pad_input_message
    rw [hmap, h1, h2]

/-- Claim C3, witness: the padding layout evaluated on the block
`0, 1, ..., 15`. -/
theorem C3_padding_layout_witness :
    (List.range 16).length = 16 ∧
    ((pad_input_message (List.range 16)).length = 32 ∧
      pad_input_message (List.range 16) =
        List.range 16 ++ 2147483648 :: (List.replicate 14 0 ++ [512])) :=
  ⟨by decide, C3_padding_layout (List.range 16) (by decide)⟩

/-- Claim C4: the 64-byte input `0, 1, ..., 63`, parsed as 16 big-endian
words, padded and hashed 2-to-1, yields the known-answer digest
`fd ea b9 ac f3 71 03 62 bd 26 58 cd c9 a2 9e 8f 9c 75 7f cf 98 11 60 3a
8c 44 7c d1 d9 15 11 08` (serialized word-by-word in big-endian). -/
theorem C4_known_answer_vector :
    (hash (pad_input_message
        ((List.range 16).map
          (fun i => from_be_bytes ((List.range 64).drop (i <<< 2)))))).foldr
        (fun wrd acc => to_be_bytes wrd ++ acc) [] =
      [253, 234, 185, 172, 243, 113, 3, 98, 189, 38, 88, 205, 201, 162, 158, 143,
       156, 117, 127, 207, 152, 17, 96, 58, 140, 68, 124, 209, 217, 21, 17, 8] := by
  decide

/-- Claim C5, counterexample to the claim as stated: `leaf_count = 1` (below
the claimed minimum of 2) passes both assertions, and so do buffer sizes that
cannot match any size implied by `leaf_count` as long as the two size
arguments are equal (here both 4 for `leaf_count = 4`); in neither case does
`merklize` fail. -/
theorem C5_counterexample :
    isOkB (merklizeHpp 1 64 64 zeroBuf zeroBuf) = true ∧
    isOkB (merklizeHpp 4 4 4 zeroBuf zeroBuf) = true := by
  exact ⟨rfl, rfl⟩

/-- Claim C5 (amended): both `merklize` entry points validate exactly two
conditions before touching either buffer, in source order:
`i_size == o_size` (else `BufferSizeMismatch`) and
`leaf_cnt & (leaf_cnt - 1) == 0` (else `InvalidLeafCount`); under these
checks `leaf_count = 3` fails with `InvalidLeafCount`, while a below-minimum
`leaf_count` (0 or 1) and buffer sizes unrelated to `leaf_count` are
accepted. -/
theorem C5_precondition_checks :
    ∀ (leaf_cnt i_size o_size : Nat) (leaves init : Buf),
      (i_size ≠ o_size →
        merklizeHpp leaf_cnt i_size o_size leaves init =
            Except.error MerklizeError.BufferSizeMismatch ∧
          merklizeUtils leaf_cnt i_size o_size leaves init =
            Except.error MerklizeError.BufferSizeMismatch) ∧
      (i_size = o_size → leaf_cnt &&& (leaf_cnt - 1) ≠ 0 →
        merklizeHpp leaf_cnt i_size o_size leaves init =
            Except.error MerklizeError.InvalidLeafCount ∧
          merklizeUtils leaf_cnt i_size o_size leaves init =
            Except.error MerklizeError.InvalidLeafCount) ∧
      (i_size = o_size → leaf_cnt &&& (leaf_cnt - 1) = 0 →
        merklizeHpp leaf_cnt i_size o_size leaves init =
            Except.ok (merklizeHppRun leaf_cnt leaves init) ∧
          merklizeUtils leaf_cnt i_size o_size leaves init =
            Except.ok (utilsRun leaf_cnt leaves init)) := by
  intro leaf_cnt i_size o_size leaves init
  refine ⟨?_, ?_, ?_⟩
  · intro h1
    unfold merklizeHpp merklizeUtils
    rw [if_pos h1, if_pos h1]
    exact ⟨rfl, rfl⟩
  · intro h1 h2
    have hns : ¬(i_size ≠ o_size) := fun hc => hc h1
    unfold merklizeHpp merklizeUtils
    rw [if_neg hns, if_pos h2, if_neg hns, if_pos h2]
    exact ⟨rfl, rfl⟩
  · intro h1 h2
    have hns : ¬(i_size ≠ o_size) := fun hc => hc h1
    have hno : ¬(leaf_cnt &&& (leaf_cnt - 1) ≠ 0) := fun hc => hc h2
    unfold merklizeHpp merklizeUtils
    rw [if_neg hns, if_neg hno, if_neg hns, if_neg hno]
    exact ⟨rfl, rfl⟩

/-- Claim C5, witness: `leaf_count = 3` with equal sizes fails with
`InvalidLeafCount` on both variants. -/
theorem C5_precondition_checks_witness :
    (64 : Nat) = 64 ∧ (3 : Nat) &&& (3 - 1) ≠ 0 ∧
    merklizeHpp 3 64 64 zeroBuf zeroBuf =
      Except.error MerklizeError.InvalidLeafCount ∧
    merklizeUtils 3 64 64 zeroBuf zeroBuf =
      Except.error MerklizeError.InvalidLeafCount :=
  ⟨rfl, by decide,
    ((C5_precondition_checks 3 64 64 zeroBuf zeroBuf).2.1 rfl (by decide)).1,
    ((C5_precondition_checks 3 64 64 zeroBuf zeroBuf).2.1 rfl (by decide)).2⟩

/-- Claim C6 (code bug): at `leaf_count = 2` the `merklize.hpp` variant's two
worker orchestrators do nothing (`itr_cnt = leaf_cnt >> 2 = 0`, zero rounds),
so the only operation is the root kernel, which hashes intermediates words
16-31 even though nothing was ever written there and the leaves are never
read: the root digest is independent of the leaves, contradicting the claimed
"root = digest of the single pair of leaves" and "no read of a level that
does not exist".  For `leaf_count = 4` every intermediate read is covered by
an earlier write. -/
theorem C6_leafcount2_reads_unwritten :
    merklizeHppOps 2 = [rootOp] ∧
    opsReadSafe (merklizeHppOps 2) = false ∧
    opsReadSafe (merklizeHppOps 4) = true ∧
    readN (merklizeHppRun 2 oneAt0Buf zeroBuf) 8 8 =
      readN (merklizeHppRun 2 zeroBuf zeroBuf) 8 8 := by
  exact ⟨by decide, by decide, by decide, by decide⟩

/-- Claim C7, counterexample to the claim as stated: at `leaf_count = 2` the
`utils.hpp` variant never writes a single node.  Its compute worker 1 runs
`(leaf_cnt >> 1) - 1 = 0` rounds, so it performs no pipe operation at all,
yet the orchestrator's second pipe event — the blocking write of leaf 1's
padded message to `ipipe1`, which precedes every intermediates store in
program order — must rendezvous with that worker: already the two-event
prefix of the orchestrator trace admits no completing execution.  Zero nodes
are therefore ever written, not the claimed `2 - 1 = 1` over `log2(2) = 1`
level, and the call never returns. -/
theorem C7_counterexample :
    utilsWorker1Trace 2 = [] ∧
    drainB ((utilsOrchTrace 2).take 2) (utilsWorker0Trace 2) (utilsWorker1Trace 2)
      = false := by
  exact ⟨rfl, by decide⟩

/-- Claim C7 (amended): for every power-of-two `leaf_count = 2^k ≥ 4`, both
variants perform exactly `2^k - 1` hash operations, each writing a distinct
8-word node slot; the `utils.hpp` leaf level has `2^(k-1)` operations, round
`r` has `2^(k-2-r)` operations (each level half the one below, the first
round half the leaf level), and the levels number `log2(leaf_count)` in total
(leaf level, `k - 2` intermediate rounds, root). -/
theorem C7_node_counts (k : Nat) (hk : 2 ≤ k) :
    (merklizeHppOps (2 ^ k)).length = 2 ^ k - 1 ∧
    (utilsOps (2 ^ k)).length = 2 ^ k - 1 ∧
    ((merklizeHppOps (2 ^ k)).map Op.o_off).Nodup ∧
    ((utilsOps (2 ^ k)).map Op.o_off).Nodup ∧
    (utilsLeafOps (2 ^ k)).length = 2 ^ (k - 1) ∧
    (∀ r : Nat, r < k - 2 → (utilsRoundOps (2 ^ k) r).length = 2 ^ (k - 2 - r)) ∧
    (∀ r : Nat, r + 1 < k - 2 →
      2 * (utilsRoundOps (2 ^ k) (r + 1)).length = (utilsRoundOps (2 ^ k) r).length) ∧
    (0 < k - 2 → 2 * (utilsRoundOps (2 ^ k) 0).length = (utilsLeafOps (2 ^ k)).length) ∧
    1 + (k - 2) + 1 = bin_log (2 ^ k) := by
  have hlen0 : ∀ r : Nat, r < k - 2 → (utilsRoundOps (2 ^ k) r).length = 2 ^ (k - 2 - r) := by
    intro r hr
    rw [utilsRoundOps_eq k r hk hr, List.length_map, List.length_range']
  refine ⟨?_, ?_, ?_, ?_, ?_, hlen0, ?_, ?_, ?_⟩
  · rw [hppOps_eq k hk, List.length_map, hppSched_length k hk]
  · rw [utilsOps_eq k hk, List.length_map, utilsSched_length k hk]
  · rw [hppOps_eq k hk]
    exact ops_o_off_nodup k hk (hppSched k) (hppSched_mem_iff k hk) (hppSched_length k hk)
  · rw [utilsOps_eq k hk]
    exact ops_o_off_nodup k hk (utilsSched k) (utilsSched_mem_iff k hk) (utilsSched_length k hk)
  · rw [utilsLeafOps_eq k hk, List.length_map, List.length_range']
  · intro r hr
    rw [hlen0 r (by omega), hlen0 (r + 1) (by omega)]
    conv_rhs => rw [show k - 2 - r = 1 + (k - 2 - (r + 1)) by omega]
    rw [pow_add]
    norm_num
  · intro hk3
    rw [hlen0 0 hk3, utilsLeafOps_eq k hk, List.length_map, List.length_range']
    conv_rhs => rw [show k - 1 = 1 + (k - 2 - 0) by omega]
    rw [pow_add]
    norm_num
  · rw [bin_log_two_pow]
    omega

/-- Claim C7, witness: the amended count at `leaf_count = 4`. -/
theorem C7_node_counts_witness :
    (2 : Nat) ≤ 2 ∧ (merklizeHppOps (2 ^ 2)).length = 2 ^ 2 - 1 :=
  ⟨by decide, (C7_node_counts 2 (by norm_num)).1⟩

/-- Claim C8, counterexample to the claim as stated: at `leaf_count = 2` the
two variants are not equivalent.  The `utils.hpp` orchestrator's full pipe
trace admits no completing execution against its two bounded workers (the
orchestrator dispatches two requests on pipe pair 0 and one on pipe pair 1,
but worker 0 serves only one round and worker 1 none), so that variant
deadlocks and never produces any intermediates contents, while the
`merklize.hpp` variant — whose compute kernels are unbounded `while (true)`
servers — completes, performing exactly the root-kernel store to words 8-15
(of a digest of unwritten memory, per the `leaf_count = 2` analysis of
claim C6). -/
theorem C8_counterexample :
    drainB (utilsOrchTrace 2) (utilsWorker0Trace 2) (utilsWorker1Trace 2) = false ∧
    merklizeHppOps 2 = [rootOp] := by
  exact ⟨by decide, by decide⟩

set_option maxRecDepth 100000 in
/-- Claim C8 (amended): for every power-of-two `leaf_count = 2^k ≥ 4` and any
leaves and initial intermediates contents, the two-orchestrator/four-worker
`merklize.hpp` variant and the single-orchestrator/two-worker `utils.hpp`
variant produce identical intermediates buffers (every node value at the same
offset). -/
theorem C8_variant_equivalence (k : Nat) (hk : 2 ≤ k) (leaves init : Buf) :
    merklizeHppRun (2 ^ k) leaves init = utilsRun (2 ^ k) leaves init := by
  rw [hppRun_spec k hk leaves init, utilsRun_spec k hk leaves init]

/-- Claim C8, witness: the equivalence at `leaf_count = 4` on zero buffers. -/
theorem C8_variant_equivalence_witness :
    (2 : Nat) ≤ 2 ∧
      merklizeHppRun (2 ^ 2) zeroBuf zeroBuf = utilsRun (2 ^ 2) zeroBuf zeroBuf :=
  ⟨by decide, C8_variant_equivalence 2 (by norm_num) zeroBuf zeroBuf⟩

/-- Claim C9, counterexample to the claim as stated: at `leaf_count = 2`
(allowed by the claim) mutating a leaf word does not change the root digest,
because the `merklize.hpp` root kernel never reads the leaves at that size. -/
theorem C9_counterexample :
    readN (merklizeHppRun 2 oneAt0Buf zeroBuf) 8 8 =
      readN (merklizeHppRun 2 zeroBuf zeroBuf) 8 8 := by
  decide

set_option maxRecDepth 100000 in
/-- Claim C9 (amended): for every power-of-two `leaf_count = 2^k ≥ 4`, leaves
`L1` and a single-leaf mutation `L2` of `L1` (agreeing outside the 8 words of
leaf `l`), every node `n` that is not an ancestor of leaf `l` (heap node
`2^k + l`) is byte-identical between the two runs; and in a concrete
`leaf_count = 4` run, mutating a leaf word does change the root digest. -/
theorem C9_sibling_locality (k : Nat) (hk : 2 ≤ k) (L1 L2 init : Buf) (l : Nat)
    (hl : l < 2 ^ k)
    (hagree : ∀ x : Nat, x < 8 * l ∨ 8 * l + 8 ≤ x → L1 x = L2 x) :
    (∀ n : Nat, 1 ≤ n → n < 2 ^ k →
      (¬ ∃ d ∈ List.range (k + 1), (2 ^ k + l) >>> d = n) →
      readN (merklizeHppRun (2 ^ k) L2 init) (8 * n) 8 =
        readN (merklizeHppRun (2 ^ k) L1 init) (8 * n) 8) ∧
    readN (merklizeHppRun 4 oneAt0Buf zeroBuf) 8 8 ≠
      readN (merklizeHppRun 4 zeroBuf zeroBuf) 8 8 := by
  have heven : (2 : Nat) ^ k % 2 = 0 := two_pow_even k (by omega)
  constructor
  · intro n hn1 hn2 hanc
    have H : ∀ m : Nat, (∃ d : Nat, m >>> d = n) → 2 ^ k ≤ m → m < 2 * 2 ^ k →
        ∀ i, i < 8 → L2 (8 * m - 8 * 2 ^ k + i) = L1 (8 * m - 8 * 2 ^ k + i) := by
      intro m hm hm1 hm2 i hi
      obtain ⟨d, hd⟩ := hm
      have hdk : d < k + 1 := by
        by_contra hc
        push_neg at hc
        have hdiv : m >>> d = 0 := by
          rw [Nat.shiftRight_eq_div_pow]
          apply Nat.div_eq_of_lt
          calc m < 2 * 2 ^ k := hm2
          _ = 2 ^ (k + 1) := by rw [pow_succ]; ring
          _ ≤ 2 ^ d := Nat.pow_le_pow_right (by norm_num) hc
        omega
      have hml : m ≠ 2 ^ k + l := by
        intro hc
        exact hanc ⟨d, List.mem_range.mpr hdk, by rw [← hc]; exact hd⟩
      exact (hagree (8 * m - 8 * 2 ^ k + i) (by omega)).symm
    rw [hppRun_spec k hk L2 init, hppRun_spec k hk L1 init]
    unfold readN
    apply List.map_congr_left
    intro j hj
    rw [List.mem_range] at hj
    rw [treeBuf_word (2 ^ k) L2 init n j hn1 hn2 hj,
      treeBuf_word (2 ^ k) L1 init n j hn1 hn2 hj]
    unfold specNodeT
    rw [specNode_leaf_congr (2 ^ k) L2 L1 heven (2 ^ k) n hn1 hn2 H]
  · decide

/-- Claim C9, witness: the amended locality applied at `leaf_count = 4`,
mutated leaf 0, sibling-subtree node 3. -/
theorem C9_sibling_locality_witness :
    readN (merklizeHppRun (2 ^ 2) oneAt0Buf zeroBuf) (8 * 3) 8 =
      readN (merklizeHppRun (2 ^ 2) zeroBuf zeroBuf) (8 * 3) 8 :=
  (C9_sibling_locality 2 (by norm_num) zeroBuf oneAt0Buf zeroBuf 0 (by norm_num)
      (fun x hx => by
        unfold zeroBuf oneAt0Buf
        rw [if_neg (by omega)])).1
    3 (by norm_num) (by norm_num) (by decide)

/-- Claim C10: for every power-of-two `leaf_count = 2^k ≥ 4`, both variants
store the root digest at words 8-15, never write words 0-7 (or anything at or
beyond word `8 * leaf_count`), and store every non-root node `n` inside words
16 to `8 * leaf_count - 1` at offset `8n`; depth-based level regions halve:
the region base for each level is half that of the level below. -/
theorem C10_root_near_start_layout (k : Nat) (hk : 2 ≤ k) (leaves init : Buf) :
    (∀ x : Nat, x < 8 →
      merklizeHppRun (2 ^ k) leaves init x = init x ∧
        utilsRun (2 ^ k) leaves init x = init x) ∧
    (∀ x : Nat, 8 * 2 ^ k ≤ x →
      merklizeHppRun (2 ^ k) leaves init x = init x ∧
        utilsRun (2 ^ k) leaves init x = init x) ∧
    (∀ j : Nat, j < 8 →
      merklizeHppRun (2 ^ k) leaves init (8 * 1 + j) =
          (specNodeT (2 ^ k) leaves 1).getD j 0 ∧
        utilsRun (2 ^ k) leaves init (8 * 1 + j) =
          (specNodeT (2 ^ k) leaves 1).getD j 0) ∧
    (∀ n j : Nat, 2 ≤ n → n < 2 ^ k → j < 8 →
      16 ≤ 8 * n + j ∧ 8 * n + j < 8 * 2 ^ k ∧
      merklizeHppRun (2 ^ k) leaves init (8 * n + j) =
          (specNodeT (2 ^ k) leaves n).getD j 0 ∧
        utilsRun (2 ^ k) leaves init (8 * n + j) =
          (specNodeT (2 ^ k) leaves n).getD j 0) ∧
    (∀ m : Nat, 8 * 2 ^ (m + 1) = 2 * (8 * 2 ^ m)) := by
  refine ⟨?_, ?_, ?_, ?_, ?_⟩
  · intro x hx
    rw [hppRun_spec k hk leaves init, utilsRun_spec k hk leaves init,
      treeBuf_frame_low (2 ^ k) leaves init x hx]
    exact ⟨rfl, rfl⟩
  · intro x hx
    rw [hppRun_spec k hk leaves init, utilsRun_spec k hk leaves init,
      treeBuf_frame_high (2 ^ k) leaves init x hx]
    exact ⟨rfl, rfl⟩
  · intro j hj
    rw [hppRun_spec k hk leaves init, utilsRun_spec k hk leaves init,
      treeBuf_word (2 ^ k) leaves init 1 j (by omega) (by
        have := four_le_two_pow k hk
        omega) hj]
    exact ⟨rfl, rfl⟩
  · intro n j hn2 hnk hj
    rw [hppRun_spec k hk leaves init, utilsRun_spec k hk leaves init,
      treeBuf_word (2 ^ k) leaves init n j (by omega) hnk hj]
    exact ⟨by omega, by omega, rfl, rfl⟩
  · intro m
    rw [pow_succ]
    ring

/-- Claim C10, witness: the layout theorem applied at `leaf_count = 4` on
zero buffers, word 3 (inside the never-written words 0-7). -/
theorem C10_root_near_start_layout_witness :
    merklizeHppRun (2 ^ 2) zeroBuf zeroBuf 3 = zeroBuf 3 :=
  ((C10_root_near_start_layout 2 (by norm_num) zeroBuf zeroBuf).1 3 (by norm_num)).1

end SF

